import Mathlib

/-!
Verification of the German long-s conversion (`src/long_s/_german_conversion.py`).

Words are modelled as `List Char` (Python strings are sequences of characters).
Python primitives used by the source (`str.replace`, `re.finditer` over an
escaped literal pattern, slicing with negative indices) are modelled by
explicit recursive functions with Python's semantics, including the
zero-length-pattern corner cases.  Python index errors (`clean_word[0]` on an
empty string, `clean_word[-2]` on a one-character string) are modelled by the
conversion returning `none`.

The pattern dictionaries (`_german_lists.py`) and the two collaborator
functions (`_simple_conversions.py`) are not part of the given sources; they
are modelled from the spec, as marked on each such definition.
-/

namespace LongS

/-- Boolean prefix test on character lists (used to model Python substring
search, which scans left to right). -/
def isPre : List Char → List Char → Bool
  | [], _ => true
  | _ :: _, [] => false
  | a :: as, b :: bs => a == b && isPre as bs

/-- Recursion core of `pyReplace`; the fuel argument (instantiated with the
text's length, which bounds the number of scan steps) makes the recursion
structural. -/
def pyReplaceAux (old new : List Char) : Nat → List Char → List Char
  | _, [] => if old.isEmpty then new else []
  | 0, _ :: _ => []
  | fuel + 1, c :: rest =>
    if old ≠ [] ∧ isPre old (c :: rest) then
      new ++ pyReplaceAux old new fuel ((c :: rest).drop old.length)
    else if old.isEmpty then
      new ++ c :: pyReplaceAux old new fuel rest
    else
      c :: pyReplaceAux old new fuel rest

/-- Model of Python `s.replace(old, new)`: replaces non-overlapping
occurrences of `old` left to right; an empty `old` matches at every boundary
(Python inserts `new` between all characters and at both ends). -/
def pyReplace (s old new : List Char) : List Char :=
  pyReplaceAux old new s.length s

/-- Recursion core of `findFrom`; the fuel argument (instantiated with the
text's length) makes the recursion structural. -/
def findFromAux (pat : List Char) : Nat → List Char → Nat → List Nat
  | _, [], i => if isPre pat [] then [i] else []
  | 0, _ :: _, _ => []
  | fuel + 1, c :: rest, i =>
    if isPre pat (c :: rest) then
      if pat.isEmpty then i :: findFromAux pat fuel rest (i + 1)
      else i :: findFromAux pat fuel ((c :: rest).drop pat.length) (i + pat.length)
    else
      findFromAux pat fuel rest (i + 1)

/-- Model of `re.finditer(re.escape(pat), s)` start offsets: literal matches
found scanning left to right; after a match the scan resumes past it (one
character forward for a zero-width match, as in Python 3.7+). -/
def findFrom (pat s : List Char) (i : Nat) : List Nat :=
  findFromAux pat s.length s i

/-- Start offsets of all matches of literal `pat` in `s` (Python
`[m.start() for m in re.finditer(re.escape(pat), s)]`). -/
def pyFindIter (s pat : List Char) : List Nat :=
  findFrom pat s 0

/-- Model of Python `t[:i] + p + t[i + len(p):]` (length-preserving splice
whenever `i + p.length ≤ t.length`). -/
def splice (t : List Char) (i : Nat) (p : List Char) : List Char :=
  t.take i ++ p ++ t.drop (i + p.length)

/-- Model of Python `s[-k:]`; note `s[-0:]` is the whole string. -/
def pyTailSlice (s : List Char) (k : Nat) : List Char :=
  if k = 0 then s else s.drop (s.length - k)

/-- Model of Python `s[:-k]`; note `s[:-0]` is the empty string. -/
def pyDropTail (s : List Char) (k : Nat) : List Char :=
  if k = 0 then [] else s.take (s.length - k)

/-- Model of Python `w[:i] + c + w[i+1:]`. -/
def setCharAt (w : List Char) (i : Nat) (c : Char) : List Char :=
  w.take i ++ [c] ++ w.drop (i + 1)

/-- The sentinel marking a not-yet-resolved letter s (`UNKNOWN_S = "φ"`). -/
def UNKNOWN_S : Char := 'φ'

/-- Per-character option lists for the crossword search: any "ſ" or "s" in
the spelling pattern may alternatively be the unknown marker
(`(c if c not in "ſs" else [c, UNKNOWN_S])`). -/
def sOptions (p : List Char) : List (List Char) :=
  p.map fun c => if c = 'ſ' ∨ c = 's' then [c, UNKNOWN_S] else [c]

/-- Model of `itertools.product(*options)` (first factor varies slowest,
matching `itertools.product`). -/
def sCombos : List (List Char) → List (List Char)
  | [] => [[]]
  | o :: rest => o.flatMap fun c => (sCombos rest).map fun t => c :: t

/-- Model of `_crossword_replace` from `_german_conversion.py`: builds every
variant of the spelling pattern whose s-letters are alternately the unknown
marker, keeps the variants containing at least one marker, and replaces each
of them throughout the text with the fully resolved pattern. -/
def crossword_replace (text spelling_pattern : List Char) : List Char × Bool :=
  if text.length < spelling_pattern.length then (text, false)
  else
    let combos := sCombos (sOptions spelling_pattern)
    let possible_terms := combos.filter fun t => t.contains UNKNOWN_S
    let res := possible_terms.foldl (fun t pt => pyReplace t pt spelling_pattern) text
    (res, res != text)

/-- Model of `_blueprint_replace` from `_german_conversion.py`: finds every
offset where the blueprint contains the pattern with its long s stripped, and
forces the resolved pattern into the text at those offsets. -/
def blueprint_replace (text blueprint_text spelling_pattern : List Char) :
    List Char × Bool :=
  let pattern_without_long_s := pyReplace spelling_pattern ['ſ'] ['s']
  let matched_indices := pyFindIter blueprint_text pattern_without_long_s
  let res := matched_indices.foldl (fun t i => splice t i spelling_pattern) text
  (res, !matched_indices.isEmpty)

/-- Model of `_fill_in_double_s`: fills `"φs" → "ſs"` then `"sφ" → "sſ"`. -/
def fill_in_double_s (word : List Char) : List Char :=
  pyReplace (pyReplace word [UNKNOWN_S, 's'] ['ſ', 's']) ['s', UNKNOWN_S] ['s', 'ſ']

/-- Model of `_find_blank_indices`: indices still holding the marker. -/
def find_blank_indices (word : List Char) : List Nat :=
  (word.enum.filter fun p => p.2 == UNKNOWN_S).map fun p => p.1

/-- Model of the generator-membership test
`UNKNOWN_S in (clean_word[i] for i in idxs)` used throughout the source. -/
def hasUnknownAt (w : List Char) (idxs : List Nat) : Bool :=
  idxs.any fun i => w.getD i ' ' == UNKNOWN_S

/-- Modelled from the spec: Python `str.lower()` on the character repertoire
this conversion works with (ASCII plus the accented letters appearing in the
rules). -/
def pyLowerChar (c : Char) : Char :=
  if c = 'Ä' then 'ä'
  else if c = 'Ö' then 'ö'
  else if c = 'Ü' then 'ü'
  else if c = 'Ś' then 'ś'
  else if c = 'Š' then 'š'
  else if 'A' ≤ c ∧ c ≤ 'Z' then Char.ofNat (c.toNat + 32)
  else c

/-- Modelled from the spec: per-character action of `strip_consonant_accents`
(from `_simple_conversions.py`, not in src/): removes diacritics from
consonants, preserves vowel accents and case, preserves character count. -/
def strip_consonant_accents_char (c : Char) : Char :=
  if c = 'ś' then 's'
  else if c = 'Ś' then 'S'
  else if c = 'š' then 's'
  else if c = 'Š' then 'S'
  else if c = 'ç' then 'c'
  else if c = 'Ç' then 'C'
  else if c = 'ñ' then 'n'
  else if c = 'Ñ' then 'N'
  else c

/-- Modelled from the spec: `strip_consonant_accents` applied characterwise
(must preserve character count and position alignment). -/
def strip_consonant_accents (w : List Char) : List Char :=
  w.map strip_consonant_accents_char

/-- The blueprint form of a word: `strip_consonant_accents(word.lower())`. -/
def blueprint_of (w : List Char) : List Char :=
  strip_consonant_accents (w.map pyLowerChar)

/-- Modelled from the spec: per-position action of `transfer_long_S` (from
`_simple_conversions.py`, not in src/): the output letter identity comes from
the resolved string, the original's casing and diacritics are re-applied
where the letter is unchanged, and the allograph choices of the resolved
string are preserved exactly. -/
def transferChar (r o : Char) : Char :=
  if strip_consonant_accents_char (pyLowerChar o) = r then o else r

/-- Modelled from the spec: `transfer_long_S(resolved, original)` maps the
resolved working string back onto the original word position-for-position. -/
def transfer_long_S (resolved original : List Char) : List Char :=
  List.zipWith transferChar resolved original

/-- The two hard-coded configuration toggles of `convert_german_word`
(`DEFAULT_UNKNOWNS_TO_LONG_S`, `FORCE_SHORT_S_BEFORE_Z`); the debug-print
toggle has no effect on the result and is omitted. -/
structure Config where
  defaultUnknownsToLongS : Bool
  forceShortSBeforeZ : Bool

/-- The configuration hard-coded in the source (`True`, `False`). -/
def defaultConfig : Config := ⟨true, false⟩

/-- The injected read-only pattern store (`_german_lists.py`): exact-word
overrides keyed by first letter, suffix patterns keyed by word ending,
prefix patterns keyed by first letter, and three ordered pattern lists. -/
structure PatternStore where
  exactMatches : Char → Option (List (List Char))
  endPatterns : List Char → Option (List (List Char))
  startPatterns : Char → Option (List (List Char))
  omnipresentPatterns : List (List Char)
  postprocessPatterns : List (List Char)
  forcedOverwrites : List (List Char)

/-- Modelled from the spec: the concrete content of `_german_lists.py` is not
in src/; the spec treats it as injected read-only data (§2, §6), so the
store used for concrete evaluations is the empty injection. -/
def specStore : PatternStore :=
  ⟨fun _ => none, fun _ => none, fun _ => none, [], [], []⟩

/-- Step 0 inner loop: return the stored spelling whose long s has been
stripped equals the cleaned word, transferred onto the original word. -/
def exactLookup : List (List Char) → List Char → List Char → Option (List Char)
  | [], _, _ => none
  | term :: rest, clean, word =>
    if pyReplace term ['ſ'] ['s'] = clean then some (transfer_long_S term word)
    else exactLookup rest clean word

/-- The lookahead class of step 1: the marker stays uncertain when followed
by one of these characters (`k` commented out in the source; `z` included
only when `FORCE_SHORT_S_BEFORE_Z` is off). -/
def shortLookaheadClass (forceShortSBeforeZ : Bool) : List Char :=
  if forceShortSBeforeZ then
    ['a', 'ä', 'c', 'e', 'i', 'o', 'ö', 'p', 'ſ', UNKNOWN_S, 't', 'u', 'ü', 'y']
  else
    ['a', 'ä', 'c', 'e', 'i', 'o', 'ö', 'p', 'ſ', UNKNOWN_S, 't', 'u', 'ü', 'y', 'z']

/-- Step 1 lookahead matches: offsets of `UNKNOWN_S(?=[class])`. -/
def uncertainIndices (cls : List Char) (w : List Char) : List Nat :=
  (List.range w.length).filter fun i =>
    w.getD i ' ' == UNKNOWN_S && decide (i + 1 < w.length) && cls.contains (w.getD (i + 1) ' ')

/-- Step 1 certain-short offsets: markers not matched by the lookahead. -/
def certainShortIndices (cls : List Char) (w : List Char) : List Nat :=
  ((w.enum.filter fun p => p.2 == UNKNOWN_S && !((uncertainIndices cls w).contains p.1)).map
    fun p => p.1)

/-- Step 1 of `convert_german_word`: resolve every certainly short marker to
"s" and re-run the double-s filler. -/
def stage1 (cls : List Char) (w : List Char) : List Char :=
  fill_in_double_s ((certainShortIndices cls w).foldl (fun t i => setCharAt t i 's') w)

/-- Step 2 key selection: the candidate list under the last three blueprint
characters, else the last two, else the last one. -/
def endsListLookup (store : PatternStore) (bp : List Char) : Option (List (List Char)) :=
  let l1 := if 3 ≤ bp.length then store.endPatterns (pyTailSlice bp 3) else none
  let l2 := if l1 = none ∧ 2 ≤ bp.length then store.endPatterns (pyTailSlice bp 2) else l1
  if l2 = none ∧ 1 ≤ bp.length then store.endPatterns (pyTailSlice bp 1) else l2

/-- Step 2 loop: try each candidate in order on the equal-length trailing
snippets, stopping at the first one that produces a replacement. -/
def endLoop : List (List Char) → List Char → List Char → List Char
  | [], clean, _ => clean
  | t :: rest, clean, bp =>
    if t.length ≤ clean.length then
      if (blueprint_replace (pyTailSlice clean t.length) (pyTailSlice bp t.length) t).2 then
        fill_in_double_s (pyDropTail clean t.length ++
          (blueprint_replace (pyTailSlice clean t.length) (pyTailSlice bp t.length) t).1)
      else endLoop rest clean bp
    else endLoop rest clean bp

/-- Step 2 of `convert_german_word` (suffix lookup stage). -/
def stage2 (store : PatternStore) (bp clean : List Char) : List Char :=
  match endsListLookup store bp with
  | none => clean
  | some terms => endLoop terms clean bp

/-- Step 3 loop (omnipresent patterns): crossword-replace with every term,
breaking out as soon as the tracked blank indices hold no marker; the blank
indices are recomputed only after a successful replacement, as in the
source. -/
def omniLoop : List (List Char) → List Char → List Nat → List Char × List Nat
  | [], clean, idxs => (clean, idxs)
  | t :: rest, clean, idxs =>
    if !hasUnknownAt clean idxs then (clean, idxs)
    else
      if (crossword_replace clean t).2 then
        omniLoop rest (fill_in_double_s (crossword_replace clean t).1)
          (find_blank_indices (fill_in_double_s (crossword_replace clean t).1))
      else omniLoop rest (crossword_replace clean t).1 idxs

/-- Step 4 loop (start patterns): crossword-replace on the leading snippet,
stopping at the first candidate that produces a replacement. -/
def startLoop : List (List Char) → List Char → List Char
  | [], clean => clean
  | t :: rest, clean =>
    if t.length ≤ clean.length then
      if (crossword_replace (clean.take t.length) t).2 then
        fill_in_double_s ((crossword_replace (clean.take t.length) t).1 ++
          clean.drop t.length)
      else startLoop rest clean
    else startLoop rest clean

/-- Step 4 of `convert_german_word` (prefix lookup stage); the unknown test
uses the blank indices carried over from step 3, as in the source. -/
def stage4 (store : PatternStore) (bp0 : Char) (clean : List Char) (idxs : List Nat) :
    List Char :=
  match store.startPatterns bp0 with
  | none => clean
  | some terms => if hasUnknownAt clean idxs then startLoop terms clean else clean

/-- Step 5 loop (postprocess patterns): like step 3 but the blank indices are
never recomputed (the source does not update them in this loop). -/
def postLoop : List (List Char) → List Char → List Nat → List Char
  | [], clean, _ => clean
  | t :: rest, clean, idxs =>
    if !hasUnknownAt clean idxs then clean
    else
      postLoop rest
        (if (crossword_replace clean t).2 then
          fill_in_double_s (crossword_replace clean t).1
        else (crossword_replace clean t).1) idxs

/-- Step 6 loop (forced overwrites): every entry short enough is attempted
via blueprint replacement against the full blueprint; the loop never breaks
("can't break here b/c search is omnipresent"). -/
def forcedLoop : List (List Char) → List Char → List Char → List Char
  | [], clean, _ => clean
  | t :: rest, clean, bp =>
    if t.length ≤ clean.length then
      forcedLoop rest
        (if (blueprint_replace clean bp t).2 then
          fill_in_double_s (blueprint_replace clean bp t).1
        else (blueprint_replace clean bp t).1) bp
    else forcedLoop rest clean bp

/-- Encoder step of line 119 of the source: every "s" except the final
character becomes the unknown marker
(`clean_word[:-1].replace("s", UNKNOWN_S) + clean_word[-1]`). -/
def encode1 (clean0 : List Char) : List Char :=
  pyReplace (pyDropTail clean0 1) ['s'] [UNKNOWN_S] ++ pyTailSlice clean0 1

/-- Encoder step of lines 122-123: a word-initial marker is always long
(`if clean_word.startswith(UNKNOWN_S): clean_word = "ſ" + clean_word[1:]`). -/
def encode2 : List Char → List Char
  | [] => []
  | c :: rest => if c = UNKNOWN_S then 'ſ' :: rest else c :: rest

/-- Encoder step of lines 126-130: a penultimate marker is long unless the
word ends in "k" (only reached on words of length at least two; on shorter
words the source raises `IndexError` before this step). -/
def encode3 (clean2 : List Char) : List Char :=
  if clean2.getD (clean2.length - 2) ' ' = UNKNOWN_S then
    if clean2.getD (clean2.length - 1) ' ' ≠ 'k' then
      pyDropTail clean2 2 ++ ['ſ'] ++ pyTailSlice clean2 1
    else
      pyDropTail clean2 2 ++ ['s'] ++ pyTailSlice clean2 1
  else clean2

/-- Step 3 of `convert_german_word`: the omnipresent-pattern loop, entered
with freshly recomputed blank indices (line 204 of the source); it returns
the working string together with the possibly stale blank indices that the
source keeps using in steps 4 and 5. -/
def stage3 (store : PatternStore) (clean : List Char) : List Char × List Nat :=
  omniLoop store.omnipresentPatterns clean (find_blank_indices clean)

/-- Step 4 of `convert_german_word` on the working-string/blank-indices pair
(the blank indices are passed through unchanged, as in the source). -/
def stage4p (store : PatternStore) (c0 : Char) (p : List Char × List Nat) :
    List Char × List Nat :=
  (stage4 store c0 p.1 p.2, p.2)

/-- Step 5 of `convert_german_word`: the postprocess-pattern loop, still
driven by the stale blank indices of step 3. -/
def stage5 (store : PatternStore) (p : List Char × List Nat) : List Char :=
  postLoop store.postprocessPatterns p.1 p.2

/-- The default resolution of lines 271-272: any marker still unresolved is
replaced by the long s when `DEFAULT_UNKNOWNS_TO_LONG_S` holds, and is left
in place otherwise (the source has no else branch). -/
def defaultResolve (flag : Bool) (w : List Char) : List Char :=
  if flag then pyReplace w [UNKNOWN_S] ['ſ'] else w

/-- Steps 1 to 6 of `convert_german_word` (lines 139-272 of the source), from
the local phonotactic stage through the forced overwrites and the default
resolution of the remaining markers; `bp` is the blueprint word and `clean4`
the output of the placeholder encoder. -/
def resolveStages (cfg : Config) (store : PatternStore) (c0 : Char)
    (bp clean4 : List Char) : List Char :=
  defaultResolve cfg.defaultUnknownsToLongS
    (forcedLoop store.forcedOverwrites
      (stage5 store (stage4p store c0 (stage3 store
        (stage2 store bp
          (stage1 (shortLookaheadClass cfg.forceShortSBeforeZ) clean4)))))
      bp)

/-- Model of `convert_german_word` from `_german_conversion.py`.  The two
hard-coded toggles are taken from `cfg` and the pattern dictionaries from
`store`; `none` models a Python `IndexError` (`clean_word[0]` on an empty
word, `clean_word[-2]` on a one-character word). -/
def convert_german_word (cfg : Config) (store : PatternStore) (word : List Char) :
    Option (List Char) :=
  let clean0 := strip_consonant_accents (word.map pyLowerChar)
  match clean0 with
  | [] => none
  | c0 :: _ =>
    let exactRes :=
      match store.exactMatches c0 with
      | none => none
      | some terms => exactLookup terms clean0 word
    match exactRes with
    | some w => some w
    | none =>
      let bp := clean0
      let clean2 := encode2 (encode1 clean0)
      if clean2.length < 2 then none
      else
        let clean4 := fill_in_double_s (encode3 clean2)
        let idxs0 := find_blank_indices clean4
        if !hasUnknownAt clean4 idxs0 then
          some (transfer_long_S clean4 word)
        else
          some (transfer_long_S (resolveStages cfg store c0 bp clean4) word)

/-! Basic facts about `isPre`. -/

theorem isPre_iff {p s : List Char} : isPre p s = true ↔ p <+: s := by
  induction p generalizing s with
  | nil => simp [isPre]
  | cons a as ih =>
    cases s with
    | nil => simp [isPre]
    | cons b bs =>
      simp only [isPre, Bool.and_eq_true, beq_iff_eq, List.cons_prefix_cons, ih]

theorem isPre_length {p s : List Char} (h : isPre p s = true) : p.length ≤ s.length :=
  (isPre_iff.mp h).length_le

theorem isPre_getElem? {p s : List Char} (h : isPre p s = true) {k : Nat}
    (hk : k < p.length) : s[k]? = p[k]? := by
  have := List.prefix_iff_eq_take.mp (isPre_iff.mp h)
  conv_rhs => rw [this]
  rw [List.getElem?_take_of_lt hk]

theorem isPre_mem {p s : List Char} (h : isPre p s = true) {a : Char} (ha : a ∈ p) :
    a ∈ s :=
  (isPre_iff.mp h).subset ha

/-! Fuel congruence and equation lemmas for `pyReplace`. -/

theorem pyReplaceAux_fuel {old new : List Char} :
    ∀ (f g : Nat) (s : List Char), s.length ≤ f → s.length ≤ g →
      pyReplaceAux old new f s = pyReplaceAux old new g s := by
  intro f
  induction f with
  | zero =>
    intro g s hf _
    have : s = [] := List.length_eq_zero.mp (Nat.le_zero.mp hf)
    subst this
    cases g <;> rfl
  | succ f ih =>
    intro g s hf hg
    cases s with
    | nil => cases g <;> rfl
    | cons c rest =>
      cases g with
      | zero => simp at hg
      | succ g' =>
        have hrf : rest.length ≤ f := by simp at hf; omega
        have hrg : rest.length ≤ g' := by simp at hg; omega
        by_cases h : old ≠ [] ∧ isPre old (c :: rest) = true
        · have h1 : 0 < old.length := List.length_pos.mpr h.1
          simp only [pyReplaceAux, if_pos h]
          rw [ih g' _ (by simp; omega) (by simp; omega)]
        · by_cases he : old.isEmpty
          · simp only [pyReplaceAux, if_neg h, if_pos he]
            rw [ih g' rest hrf hrg]
          · simp only [pyReplaceAux, if_neg h, if_neg he]
            rw [ih g' rest hrf hrg]

theorem pyReplaceAux_nil_old (new : List Char) (f : Nat) (c : Char) (rest : List Char) :
    pyReplaceAux [] new (f + 1) (c :: rest) = new ++ c :: pyReplaceAux [] new f rest := by
  simp [pyReplaceAux]

theorem pyReplace_nil (old new : List Char) :
    pyReplace [] old new = if old.isEmpty then new else [] := rfl

theorem pyReplace_cons (c : Char) (rest old new : List Char) :
    pyReplace (c :: rest) old new =
      if old ≠ [] ∧ isPre old (c :: rest) = true then
        new ++ pyReplace ((c :: rest).drop old.length) old new
      else if old.isEmpty then new ++ c :: pyReplace rest old new
      else c :: pyReplace rest old new := by
  show pyReplaceAux old new (rest.length + 1) (c :: rest) = _
  by_cases h : old ≠ [] ∧ isPre old (c :: rest) = true
  · have h1 : 0 < old.length := List.length_pos.mpr h.1
    simp only [pyReplaceAux, if_pos h]
    unfold pyReplace
    rw [pyReplaceAux_fuel rest.length ((c :: rest).drop old.length).length _
      (by simp; omega) (by simp)]
  · by_cases he : old.isEmpty
    · simp only [pyReplaceAux, if_neg h, if_pos he]
      rfl
    · simp only [pyReplaceAux, if_neg h, if_neg he]
      rfl

/-! Length preservation, value preservation and special forms of
`pyReplace`. -/

theorem pyReplaceAux_length {old new : List Char} (h : old.length = new.length) :
    ∀ (f : Nat) (s : List Char), s.length ≤ f →
      (pyReplaceAux old new f s).length = s.length := by
  intro f
  induction f with
  | zero =>
    intro s hf
    have : s = [] := List.length_eq_zero.mp (Nat.le_zero.mp hf)
    subst this
    simp only [pyReplaceAux]
    split
    · rename_i he
      have : old = [] := List.isEmpty_iff.mp he
      subst this
      simpa using h.symm
    · rfl
  | succ f ih =>
    intro s hf
    cases s with
    | nil =>
      simp only [pyReplaceAux]
      split
      · rename_i he
        have : old = [] := List.isEmpty_iff.mp he
        subst this
        simpa using h.symm
      · rfl
    | cons c rest =>
      have hrf : rest.length ≤ f := by simp at hf; omega
      by_cases hb : old ≠ [] ∧ isPre old (c :: rest) = true
      · have h1 : 0 < old.length := List.length_pos.mpr hb.1
        have h2 : old.length ≤ (c :: rest).length := isPre_length hb.2
        simp only [pyReplaceAux, if_pos hb, List.length_append]
        rw [ih _ (by simp; omega)]
        simp at h2 ⊢
        omega
      · by_cases he : old.isEmpty
        · have : old = [] := List.isEmpty_iff.mp he
          subst this
          have : new = [] := List.length_eq_zero.mp (by simpa using h.symm)
          subst this
          rw [pyReplaceAux_nil_old]
          simpa using ih rest hrf
        · simp only [pyReplaceAux, if_neg hb, if_neg he, List.length_cons]
          rw [ih rest hrf]

theorem pyReplace_length {old new : List Char} (h : old.length = new.length)
    (s : List Char) : (pyReplace s old new).length = s.length :=
  pyReplaceAux_length h s.length s (Nat.le_refl _)

theorem pyReplaceAux_pres {old new : List Char} (hlen : old.length = new.length)
    (hagree : ∀ (k : Nat), old[k]? = new[k]? ∨ old[k]? = some UNKNOWN_S) :
    ∀ (f : Nat) (s : List Char), s.length ≤ f → ∀ (i : Nat),
      (pyReplaceAux old new f s)[i]? = s[i]? ∨ s[i]? = some UNKNOWN_S := by
  intro f
  induction f with
  | zero =>
    intro s hf i
    have : s = [] := List.length_eq_zero.mp (Nat.le_zero.mp hf)
    subst this
    simp only [pyReplaceAux]
    split
    · rename_i he
      have : old = [] := List.isEmpty_iff.mp he
      subst this
      have : new = [] := List.length_eq_zero.mp (by simpa using hlen.symm)
      subst this
      left; rfl
    · left; rfl
  | succ f ih =>
    intro s hf i
    cases s with
    | nil =>
      simp only [pyReplaceAux]
      split
      · rename_i he
        have : old = [] := List.isEmpty_iff.mp he
        subst this
        have : new = [] := List.length_eq_zero.mp (by simpa using hlen.symm)
        subst this
        left; rfl
      · left; rfl
    | cons c rest =>
      have hrf : rest.length ≤ f := by simp at hf; omega
      by_cases hb : old ≠ [] ∧ isPre old (c :: rest) = true
      · have h1 : 0 < old.length := List.length_pos.mpr hb.1
        have hdl : ((c :: rest).drop old.length).length ≤ f := by simp; omega
        simp only [pyReplaceAux, if_pos hb]
        by_cases hi : i < new.length
        · rw [List.getElem?_append_left hi]
          have hio : i < old.length := by omega
          have hs : (c :: rest)[i]? = old[i]? := isPre_getElem? hb.2 hio
          rcases hagree i with hk | hk
          · left; rw [← hk, hs]
          · right; rw [hs, hk]
        · push_neg at hi
          rw [List.getElem?_append_right hi]
          rcases ih _ hdl (i - new.length) with hk | hk
          · rw [hk, List.getElem?_drop]
            left
            congr 1
            omega
          · right
            rw [List.getElem?_drop] at hk
            rw [← hk]
            congr 1
            omega
      · by_cases he : old.isEmpty
        · have : old = [] := List.isEmpty_iff.mp he
          subst this
          have : new = [] := List.length_eq_zero.mp (by simpa using hlen.symm)
          subst this
          rw [pyReplaceAux_nil_old]
          cases i with
          | zero => left; simp
          | succ i => simpa using ih rest hrf i
        · simp only [pyReplaceAux, if_neg hb, if_neg he]
          cases i with
          | zero => left; simp
          | succ i => simpa using ih rest hrf i

theorem pyReplace_pres {old new : List Char} (hlen : old.length = new.length)
    (hagree : ∀ (k : Nat), old[k]? = new[k]? ∨ old[k]? = some UNKNOWN_S)
    (s : List Char) (i : Nat) :
    (pyReplace s old new)[i]? = s[i]? ∨ s[i]? = some UNKNOWN_S :=
  pyReplaceAux_pres hlen hagree s.length s (Nat.le_refl _) i

theorem pyReplaceAux_single (a b : Char) :
    ∀ (f : Nat) (s : List Char), s.length ≤ f →
      pyReplaceAux [a] [b] f s = s.map fun c => if c = a then b else c := by
  intro f
  induction f with
  | zero =>
    intro s hf
    have : s = [] := List.length_eq_zero.mp (Nat.le_zero.mp hf)
    subst this
    rfl
  | succ f ih =>
    intro s hf
    cases s with
    | nil => rfl
    | cons c rest =>
      have hrf : rest.length ≤ f := by simp at hf; omega
      by_cases hc : c = a
      · subst hc
        have hb : ([c] ≠ ([] : List Char)) ∧ isPre [c] (c :: rest) = true := by
          constructor
          · simp
          · simp [isPre]
        simp only [pyReplaceAux, if_pos hb]
        simp [ih rest hrf]
      · have hb : ¬(([a] ≠ ([] : List Char)) ∧ isPre [a] (c :: rest) = true) := by
          intro h
          have := h.2
          simp [isPre] at this
          exact hc this.symm
        simp only [pyReplaceAux, if_neg hb, if_neg (by simp : ¬([a] : List Char).isEmpty = true)]
        simp [ih rest hrf, hc]

theorem pyReplace_single (a b : Char) (s : List Char) :
    pyReplace s [a] [b] = s.map fun c => if c = a then b else c :=
  pyReplaceAux_single a b s.length s (Nat.le_refl _)

theorem pyReplaceAux_eq_self {old new : List Char} (hne : old ≠ []) :
    ∀ (f : Nat) (s : List Char), s.length ≤ f →
      (∀ i, ¬ isPre old (s.drop i) = true) → pyReplaceAux old new f s = s := by
  intro f
  induction f with
  | zero =>
    intro s hf _
    have : s = [] := List.length_eq_zero.mp (Nat.le_zero.mp hf)
    subst this
    simp only [pyReplaceAux]
    rw [if_neg (by simpa using hne)]
  | succ f ih =>
    intro s hf hno
    cases s with
    | nil =>
      simp only [pyReplaceAux]
      rw [if_neg (by simpa using hne)]
    | cons c rest =>
      have hrf : rest.length ≤ f := by simp at hf; omega
      have hb : ¬(old ≠ [] ∧ isPre old (c :: rest) = true) := by
        intro h
        exact hno 0 (by simpa using h.2)
      simp only [pyReplaceAux, if_neg hb, if_neg (by simpa using hne : ¬old.isEmpty = true)]
      rw [ih rest hrf]
      intro i hi
      exact hno (i + 1) (by simpa using hi)

theorem pyReplace_eq_self {old new : List Char} (hne : old ≠ []) (s : List Char)
    (hno : ∀ i, ¬ isPre old (s.drop i) = true) : pyReplace s old new = s :=
  pyReplaceAux_eq_self hne s.length s (Nat.le_refl _) hno

theorem pyReplace_single_occ {old new : List Char} (hne : old ≠ []) :
    ∀ (x y : List Char),
      (∀ i, isPre old ((x ++ old ++ y).drop i) = true → i = x.length) →
      pyReplace (x ++ old ++ y) old new = x ++ new ++ y := by
  intro x
  induction x with
  | nil =>
    intro y huniq
    have h1 : 0 < old.length := List.length_pos.mpr hne
    obtain ⟨oc, orest, rfl⟩ : ∃ oc orest, old = oc :: orest := by
      cases old with
      | nil => exact absurd rfl hne
      | cons oc orest => exact ⟨oc, orest, rfl⟩
    have hpre : isPre (oc :: orest) (oc :: (orest ++ y)) = true := by
      apply isPre_iff.mpr
      have := List.prefix_append (oc :: orest) y
      simpa using this
    have hdrop : (oc :: (orest ++ y)).drop (oc :: orest).length = y := by
      have := List.drop_left (oc :: orest) y
      simpa using this
    show pyReplace (oc :: (orest ++ y)) (oc :: orest) new = new ++ y
    rw [pyReplace_cons, if_pos ⟨hne, hpre⟩, hdrop]
    rw [pyReplace_eq_self hne y ?hy]
    case hy =>
      intro i hi
      have hglob : isPre (oc :: orest)
          ((oc :: (orest ++ y)).drop ((oc :: orest).length + i)) = true := by
        have : (oc :: (orest ++ y)).drop ((oc :: orest).length + i) = y.drop i := by
          rw [← List.drop_drop, hdrop]
        rw [this]
        exact hi
      have h0 := huniq ((oc :: orest).length + i) (by simpa using hglob)
      simp at h0
  | cons a x' ih =>
    intro y huniq
    simp only [List.cons_append]
    rw [pyReplace_cons]
    have hb : ¬(old ≠ [] ∧ isPre old (a :: (x' ++ old ++ y)) = true) := by
      intro h
      have := huniq 0 (by simpa using h.2)
      simp at this
    rw [if_neg hb, if_neg (by simpa using hne : ¬old.isEmpty = true)]
    rw [ih y]
    intro i hi
    have := huniq (i + 1) (by simpa using hi)
    simpa using this

/-! Facts about `findFrom` / `pyFindIter`. -/

theorem findFromAux_ge (pat : List Char) :
    ∀ (f : Nat) (s : List Char) (i j : Nat), j ∈ findFromAux pat f s i → i ≤ j := by
  intro f
  induction f with
  | zero =>
    intro s i j hj
    cases s with
    | nil =>
      simp only [findFromAux] at hj
      split at hj
      · simp at hj; omega
      · simp at hj
    | cons c rest => simp [findFromAux] at hj
  | succ f ih =>
    intro s i j hj
    cases s with
    | nil =>
      simp only [findFromAux] at hj
      split at hj
      · simp at hj; omega
      · simp at hj
    | cons c rest =>
      simp only [findFromAux] at hj
      split at hj
      · split at hj
        · rcases List.mem_cons.mp hj with rfl | hj
          · exact Nat.le_refl _
          · have := ih rest (i + 1) j hj
            omega
        · rcases List.mem_cons.mp hj with rfl | hj
          · exact Nat.le_refl _
          · have := ih _ (i + pat.length) j hj
            omega
      · have := ih rest (i + 1) j hj
        omega

theorem findFromAux_spec (pat : List Char) :
    ∀ (f : Nat) (s : List Char) (i j : Nat), s.length ≤ f →
      j ∈ findFromAux pat f s i →
      i ≤ j ∧ j - i ≤ s.length ∧ isPre pat (s.drop (j - i)) = true := by
  intro f
  induction f with
  | zero =>
    intro s i j hf hj
    have : s = [] := List.length_eq_zero.mp (Nat.le_zero.mp hf)
    subst this
    simp only [findFromAux] at hj
    split at hj
    · rename_i hp
      simp at hj
      subst hj
      exact ⟨Nat.le_refl _, by simp, by simpa using hp⟩
    · simp at hj
  | succ f ih =>
    intro s i j hf hj
    cases s with
    | nil =>
      simp only [findFromAux] at hj
      split at hj
      · rename_i hp
        simp at hj
        subst hj
        exact ⟨Nat.le_refl _, by simp, by simpa using hp⟩
      · simp at hj
    | cons c rest =>
      have hrf : rest.length ≤ f := by simp at hf; omega
      simp only [findFromAux] at hj
      split at hj
      · rename_i hp
        split at hj
        · rename_i hemp
          have hpe : pat = [] := List.isEmpty_iff.mp hemp
          rcases List.mem_cons.mp hj with rfl | hj
          · exact ⟨Nat.le_refl _, by simp, by simpa [hpe] using hp⟩
          · obtain ⟨h1, h2, h3⟩ := ih rest (i + 1) j hrf hj
            refine ⟨by omega, by simp; omega, ?_⟩
            have e1 : j - i = (j - (i + 1)) + 1 := by omega
            have e2 : (c :: rest).drop (j - i) = rest.drop (j - (i + 1)) := by
              rw [e1]
              exact List.drop_succ_cons ..
            rw [e2]
            exact h3
        · rename_i hemp
          have hpl : 0 < pat.length := by
            cases pat with
            | nil => simp at hemp
            | cons a as => simp
          have hple : pat.length ≤ (c :: rest).length := isPre_length hp
          rcases List.mem_cons.mp hj with rfl | hj
          · exact ⟨Nat.le_refl _, by simp, by simpa using hp⟩
          · have hdl : ((c :: rest).drop pat.length).length ≤ f := by
              simp at hf ⊢
              omega
            obtain ⟨h1, h2, h3⟩ := ih _ (i + pat.length) j hdl hj
            simp only [List.length_drop, List.length_cons] at h2
            refine ⟨by omega, by simp at hple h2 ⊢; omega, ?_⟩
            rw [List.drop_drop] at h3
            have : pat.length + (j - (i + pat.length)) = j - i := by omega
            rwa [this] at h3
      · obtain ⟨h1, h2, h3⟩ := ih rest (i + 1) j hrf hj
        refine ⟨by omega, by simp; omega, ?_⟩
        have e1 : j - i = (j - (i + 1)) + 1 := by omega
        have e2 : (c :: rest).drop (j - i) = rest.drop (j - (i + 1)) := by
          rw [e1]
          exact List.drop_succ_cons ..
        rw [e2]
        exact h3

theorem findFromAux_pairwise (pat : List Char) :
    ∀ (f : Nat) (s : List Char) (i : Nat),
      List.Pairwise (fun a b => a + pat.length ≤ b) (findFromAux pat f s i) := by
  intro f
  induction f with
  | zero =>
    intro s i
    cases s with
    | nil =>
      simp only [findFromAux]
      split
      · simp
      · simp
    | cons c rest => simp [findFromAux]
  | succ f ih =>
    intro s i
    cases s with
    | nil =>
      simp only [findFromAux]
      split
      · simp
      · simp
    | cons c rest =>
      simp only [findFromAux]
      split
      · split
        · rename_i hemp
          have hpe : pat = [] := List.isEmpty_iff.mp hemp
          refine List.pairwise_cons.mpr ⟨?_, ih rest (i + 1)⟩
          intro j hj
          have := findFromAux_ge pat f rest (i + 1) j hj
          simp [hpe]
          omega
        · refine List.pairwise_cons.mpr ⟨?_, ih _ (i + pat.length)⟩
          intro j hj
          have := findFromAux_ge pat f _ (i + pat.length) j hj
          omega
      · exact ih rest (i + 1)

theorem pyFindIter_bound {s pat : List Char} {j : Nat} (hj : j ∈ pyFindIter s pat) :
    j + pat.length ≤ s.length ∧ isPre pat (s.drop j) = true := by
  obtain ⟨_, h2, h3⟩ := findFromAux_spec pat s.length s 0 j (Nat.le_refl _) hj
  simp only [Nat.sub_zero] at h2 h3
  refine ⟨?_, h3⟩
  cases pat with
  | nil => simpa using h2
  | cons a as =>
    have := isPre_length h3
    simp only [List.length_drop] at this
    omega

theorem pyFindIter_pairwise (s pat : List Char) :
    List.Pairwise (fun a b => a + pat.length ≤ b) (pyFindIter s pat) :=
  findFromAux_pairwise pat s.length s 0

/-! Facts about `splice`. -/

theorem splice_length {t p : List Char} {i : Nat} (h : i + p.length ≤ t.length) :
    (splice t i p).length = t.length := by
  simp only [splice, List.length_append, List.length_take, List.length_drop]
  omega

theorem splice_getElem?_left {t p : List Char} {i j : Nat} (h : j < i)
    (hle : i ≤ t.length) : (splice t i p)[j]? = t[j]? := by
  unfold splice
  rw [List.append_assoc, List.getElem?_append_left, List.getElem?_take_of_lt h]
  simp only [List.length_take]
  omega

theorem splice_getElem?_mid {t p : List Char} {i j : Nat} (h1 : i ≤ j)
    (h2 : j < i + p.length) (hle : i ≤ t.length) :
    (splice t i p)[j]? = p[j - i]? := by
  unfold splice
  rw [List.append_assoc, List.getElem?_append_right, List.getElem?_append_left]
  · congr 1
    simp only [List.length_take]
    omega
  · simp only [List.length_take]
    omega
  · simp only [List.length_take]
    omega

theorem splice_getElem?_right {t p : List Char} {i j : Nat} (h : i + p.length ≤ j)
    (hle : i + p.length ≤ t.length) : (splice t i p)[j]? = t[j]? := by
  unfold splice
  rw [List.append_assoc, List.getElem?_append_right, List.getElem?_append_right,
    List.getElem?_drop]
  · congr 1
    simp only [List.length_take]
    omega
  · simp only [List.length_take]
    omega
  · simp only [List.length_take]
    omega

/-! Facts about folded splices (the application loop of
`blueprint_replace`). -/

theorem foldSplice_length {p : List Char} :
    ∀ (I : List Nat) (t : List Char), (∀ j ∈ I, j + p.length ≤ t.length) →
      (I.foldl (fun t i => splice t i p) t).length = t.length := by
  intro I
  induction I with
  | nil => intro t _; rfl
  | cons k I' ih =>
    intro t hb
    have hk : k + p.length ≤ t.length := hb k (List.mem_cons_self _ _)
    have hlen := @splice_length t p k hk
    simp only [List.foldl_cons]
    rw [ih (splice t k p) (by intro j hj; rw [hlen]; exact hb j (List.mem_cons_of_mem _ hj))]
    exact hlen

theorem foldSplice_pres {p : List Char} (hp : UNKNOWN_S ∉ p) :
    ∀ (I : List Nat) (t : List Char), (∀ j ∈ I, j + p.length ≤ t.length) →
      ∀ (i : Nat), (I.foldl (fun t i => splice t i p) t)[i]? = some UNKNOWN_S →
        t[i]? = some UNKNOWN_S := by
  intro I
  induction I with
  | nil => intro t _ i h; exact h
  | cons k I' ih =>
    intro t hb i h
    have hk : k + p.length ≤ t.length := hb k (List.mem_cons_self _ _)
    have hlen := @splice_length t p k hk
    simp only [List.foldl_cons] at h
    have hmid := ih (splice t k p)
      (by intro j hj; rw [hlen]; exact hb j (List.mem_cons_of_mem _ hj)) i h
    by_cases h1 : i < k
    · rwa [splice_getElem?_left h1 (by omega)] at hmid
    · by_cases h2 : i < k + p.length
      · rw [splice_getElem?_mid (by omega) h2 (by omega)] at hmid
        exfalso
        exact hp (List.mem_iff_getElem?.mpr ⟨i - k, hmid⟩)
      · rwa [splice_getElem?_right (by omega) hk] at hmid

theorem foldSplice_frozen {p : List Char} :
    ∀ (I : List Nat) (t : List Char) (j : Nat),
      (∀ i ∈ I, j + p.length ≤ i ∧ i + p.length ≤ t.length) →
      ((I.foldl (fun t i => splice t i p) t).drop j).take p.length =
        (t.drop j).take p.length := by
  intro I
  induction I with
  | nil => intro t j _; rfl
  | cons k I' ih
    =>
    intro t j hb
    obtain ⟨hjk, hkt⟩ := hb k (List.mem_cons_self _ _)
    have hlen := @splice_length t p k hkt
    simp only [List.foldl_cons]
    rw [ih (splice t k p) j
      (by intro i hi; rw [hlen]; exact hb i (List.mem_cons_of_mem _ hi))]
    apply List.ext_getElem?
    intro m
    by_cases hm : m < p.length
    · rw [List.getElem?_take_of_lt hm, List.getElem?_take_of_lt hm,
        List.getElem?_drop, List.getElem?_drop]
      exact splice_getElem?_left (by omega) (by omega)
    · push_neg at hm
      rw [List.getElem?_take, List.getElem?_take, if_neg (by omega), if_neg (by omega)]

theorem foldSplice_seg {p : List Char} :
    ∀ (I : List Nat) (t : List Char),
      (∀ j ∈ I, j + p.length ≤ t.length) →
      List.Pairwise (fun a b => a + p.length ≤ b) I →
      ∀ j ∈ I, ((I.foldl (fun t i => splice t i p) t).drop j).take p.length = p := by
  intro I
  induction I with
  | nil => intro t _ _ j hj; simp at hj
  | cons k I' ih =>
    intro t hb hpw j hj
    obtain ⟨hhead, htail⟩ := List.pairwise_cons.mp hpw
    have hk : k + p.length ≤ t.length := hb k (List.mem_cons_self _ _)
    have hlen := @splice_length t p k hk
    simp only [List.foldl_cons]
    rcases List.mem_cons.mp hj with rfl | hj'
    · rw [foldSplice_frozen I' (splice t j p) j
        (by intro i hi; rw [hlen]; exact ⟨hhead i hi, hb i (List.mem_cons_of_mem _ hi)⟩)]
      apply List.ext_getElem?
      intro m
      by_cases hm : m < p.length
      · rw [List.getElem?_take_of_lt hm, List.getElem?_drop]
        rw [splice_getElem?_mid (by omega) (by omega) (by omega)]
        congr 1
        omega
      · push_neg at hm
        rw [List.getElem?_take, if_neg (by omega), List.getElem?_eq_none hm]
    · exact ih (splice t k p)
        (by intro i hi; rw [hlen]; exact hb i (List.mem_cons_of_mem _ hi)) htail j hj'

/-! Facts about the crossword matcher. -/

theorem sCombos_length :
    ∀ (opts : List (List Char)) (t : List Char), t ∈ sCombos opts →
      t.length = opts.length := by
  intro opts
  induction opts with
  | nil => intro t ht; simp [sCombos] at ht; simp [ht]
  | cons o rest ih =>
    intro t ht
    simp only [sCombos, List.mem_flatMap, List.mem_map] at ht
    obtain ⟨c, _, t', ht', rfl⟩ := ht
    simp [ih t' ht']

theorem sCombos_sOptions_agree :
    ∀ (sp t : List Char), t ∈ sCombos (sOptions sp) → ∀ (k : Nat),
      t[k]? = sp[k]? ∨ t[k]? = some UNKNOWN_S := by
  intro sp
  induction sp with
  | nil =>
    intro t ht k
    simp [sCombos, sOptions] at ht
    simp [ht]
  | cons c sp' ih =>
    intro t ht k
    simp only [sOptions, List.map_cons, sCombos, List.mem_flatMap, List.mem_map] at ht
    obtain ⟨a, ha, t', ht', rfl⟩ := ht
    have ha' : a = c ∨ a = UNKNOWN_S := by
      by_cases hc : c = 'ſ' ∨ c = 's'
      · rw [if_pos hc] at ha
        simpa using ha
      · rw [if_neg hc] at ha
        simp at ha
        left
        exact ha
    cases k with
    | zero =>
      rcases ha' with rfl | rfl
      · left; simp
      · right; simp
    | succ k =>
      have := ih t' (by simpa [sOptions] using ht') k
      simpa using this

theorem foldReplace_pres {sp : List Char} :
    ∀ (terms : List (List Char)) (text : List Char),
      (∀ pt ∈ terms, pt.length = sp.length ∧
        ∀ (k : Nat), pt[k]? = sp[k]? ∨ pt[k]? = some UNKNOWN_S) →
      ∀ (i : Nat),
        (terms.foldl (fun t pt => pyReplace t pt sp) text)[i]? = text[i]? ∨
          text[i]? = some UNKNOWN_S := by
  intro terms
  induction terms with
  | nil => intro text _ i; left; rfl
  | cons pt terms' ih =>
    intro text hb i
    obtain ⟨hl, hagree⟩ := hb pt (List.mem_cons_self _ _)
    simp only [List.foldl_cons]
    rcases ih (pyReplace text pt sp)
        (fun q hq => hb q (List.mem_cons_of_mem _ hq)) i with hk | hk
    · rcases pyReplace_pres hl hagree text i with hk2 | hk2
      · left; rw [hk, hk2]
      · right; exact hk2
    · rcases pyReplace_pres hl hagree text i with hk2 | hk2
      · right; rw [← hk2, hk]
      · right; exact hk2

theorem foldReplace_length {sp : List Char} :
    ∀ (terms : List (List Char)) (text : List Char),
      (∀ pt ∈ terms, pt.length = sp.length) →
      (terms.foldl (fun t pt => pyReplace t pt sp) text).length = text.length := by
  intro terms
  induction terms with
  | nil => intro text _; rfl
  | cons pt terms' ih =>
    intro text hb
    simp only [List.foldl_cons]
    rw [ih (pyReplace text pt sp) (fun q hq => hb q (List.mem_cons_of_mem _ hq))]
    exact pyReplace_length (hb pt (List.mem_cons_self _ _)) text

theorem crossword_pres (text sp : List Char) (i : Nat) :
    (crossword_replace text sp).1[i]? = text[i]? ∨ text[i]? = some UNKNOWN_S := by
  unfold crossword_replace
  split
  · left; rfl
  · apply foldReplace_pres
    intro pt hpt
    have hmem := List.mem_of_mem_filter hpt
    exact ⟨(sCombos_length _ pt hmem).trans (by simp [sOptions]),
      sCombos_sOptions_agree sp pt hmem⟩

theorem crossword_length (text sp : List Char) :
    (crossword_replace text sp).1.length = text.length := by
  unfold crossword_replace
  split
  · rfl
  · apply foldReplace_length
    intro pt hpt
    have hmem := List.mem_of_mem_filter hpt
    exact (sCombos_length _ pt hmem).trans (by simp [sOptions])

/-! Facts about the blueprint matcher. -/

theorem pattern_without_long_s_length (sp : List Char) :
    (pyReplace sp ['ſ'] ['s']).length = sp.length := by
  rw [pyReplace_single]
  simp

theorem blueprint_replace_length {text bp sp : List Char} (h : bp.length = text.length) :
    (blueprint_replace text bp sp).1.length = text.length := by
  unfold blueprint_replace
  apply foldSplice_length
  intro j hj
  have := (pyFindIter_bound hj).1
  rw [pattern_without_long_s_length] at this
  omega

theorem blueprint_replace_pres {text bp sp : List Char} (hφ : UNKNOWN_S ∉ sp)
    (h : bp.length ≤ text.length) (i : Nat)
    (hres : (blueprint_replace text bp sp).1[i]? = some UNKNOWN_S) :
    text[i]? = some UNKNOWN_S := by
  unfold blueprint_replace at hres
  apply foldSplice_pres hφ _ text _ i hres
  intro j hj
  have := (pyFindIter_bound hj).1
  rw [pattern_without_long_s_length] at this
  omega

theorem blueprint_replace_seg {text bp sp : List Char} (h : bp.length ≤ text.length) :
    ∀ j ∈ pyFindIter bp (pyReplace sp ['ſ'] ['s']),
      ((blueprint_replace text bp sp).1.drop j).take sp.length = sp := by
  intro j hj
  unfold blueprint_replace
  apply foldSplice_seg _ text _ _ j hj
  · intro k hk
    have := (pyFindIter_bound hk).1
    rw [pattern_without_long_s_length] at this
    omega
  · have := pyFindIter_pairwise bp (pyReplace sp ['ſ'] ['s'])
    rw [pattern_without_long_s_length] at this
    exact this

/-! Facts about the digraph filler. -/

theorem fill_in_double_s_length (w : List Char) :
    (fill_in_double_s w).length = w.length := by
  unfold fill_in_double_s
  rw [pyReplace_length (by simp), pyReplace_length (by simp)]

theorem fill_in_double_s_pres (w : List Char) (i : Nat) :
    (fill_in_double_s w)[i]? = w[i]? ∨ w[i]? = some UNKNOWN_S := by
  unfold fill_in_double_s
  have h1 : ∀ (k : Nat),
      ([UNKNOWN_S, 's'] : List Char)[k]? = (['ſ', 's'] : List Char)[k]? ∨
        ([UNKNOWN_S, 's'] : List Char)[k]? = some UNKNOWN_S := by
    intro k
    match k with
    | 0 => right; rfl
    | 1 => left; rfl
    | (n + 2) => left; rfl
  have h2 : ∀ (k : Nat),
      (['s', UNKNOWN_S] : List Char)[k]? = (['s', 'ſ'] : List Char)[k]? ∨
        (['s', UNKNOWN_S] : List Char)[k]? = some UNKNOWN_S := by
    intro k
    match k with
    | 0 => left; rfl
    | 1 => right; rfl
    | (n + 2) => left; rfl
  rcases pyReplace_pres (by simp) h2 (pyReplace w [UNKNOWN_S, 's'] ['ſ', 's']) i with
    hk | hk
  · rcases pyReplace_pres (by simp) h1 w i with hk2 | hk2
    · left; rw [hk, hk2]
    · right; exact hk2
  · rcases pyReplace_pres (by simp) h1 w i with hk2 | hk2
    · right; rw [← hk2, hk]
    · right; exact hk2

theorem contains_iff_getElem? {w : List Char} {a : Char} :
    w.contains a = true ↔ ∃ (i : Nat), w[i]? = some a := by
  rw [List.contains_iff_exists_mem_beq]
  constructor
  · rintro ⟨b, hb, hab⟩
    obtain ⟨i, hi⟩ := List.mem_iff_getElem?.mp hb
    have hab' : a = b := by simpa using hab
    exact ⟨i, by rw [hab']; exact hi⟩
  · rintro ⟨i, hi⟩
    exact ⟨a, List.mem_iff_getElem?.mpr ⟨i, hi⟩, by simp⟩

theorem fill_in_double_s_eq_self {w : List Char} (h : ¬ w.contains UNKNOWN_S = true) :
    fill_in_double_s w = w := by
  have hno : ∀ (i : Nat), w[i]? ≠ some UNKNOWN_S := by
    intro i hi
    exact h (contains_iff_getElem?.mpr ⟨i, hi⟩)
  unfold fill_in_double_s
  have e1 : pyReplace w [UNKNOWN_S, 's'] ['ſ', 's'] = w := by
    apply pyReplace_eq_self (by simp)
    intro i hi
    have : (w.drop i)[0]? = some UNKNOWN_S := by
      rw [isPre_getElem? hi (by simp)]
      rfl
    rw [List.getElem?_drop] at this
    exact hno (i + 0) this
  rw [e1]
  apply pyReplace_eq_self (by simp)
  intro i hi
  have : (w.drop i)[1]? = some UNKNOWN_S := by
    rw [isPre_getElem? hi (by simp)]
    rfl
  rw [List.getElem?_drop] at this
  exact hno (i + 1) this

/-! Facts about blank indices and the unknown test. -/

theorem find_blank_indices_mem {w : List Char} {j : Nat} :
    j ∈ find_blank_indices w ↔ w[j]? = some UNKNOWN_S := by
  unfold find_blank_indices
  simp only [List.mem_map, List.mem_filter]
  constructor
  · rintro ⟨p, ⟨hp, hpe⟩, rfl⟩
    have hval := List.mem_enum_iff_getElem?.mp hp
    have hpe' : p.2 = UNKNOWN_S := by simpa using hpe
    rwa [hpe'] at hval
  · intro hj
    exact ⟨(j, UNKNOWN_S), ⟨List.mem_enum_iff_getElem?.mpr hj, by simp⟩, rfl⟩

theorem hasUnknownAt_blanks {w : List Char} :
    hasUnknownAt w (find_blank_indices w) = true ↔ w.contains UNKNOWN_S = true := by
  unfold hasUnknownAt
  rw [List.any_eq_true]
  constructor
  · rintro ⟨i, hi, _⟩
    exact contains_iff_getElem?.mpr ⟨i, find_blank_indices_mem.mp hi⟩
  · intro h
    obtain ⟨i, hi⟩ := contains_iff_getElem?.mp h
    refine ⟨i, find_blank_indices_mem.mpr hi, ?_⟩
    rw [List.getD_eq_getElem?_getD, hi]
    simp

/-! Facts about step 1 (the local phonotactic stage). -/

theorem certainShortIndices_mem {cls w : List Char} {j : Nat}
    (hj : j ∈ certainShortIndices cls w) : w[j]? = some UNKNOWN_S := by
  unfold certainShortIndices at hj
  simp only [List.mem_map, List.mem_filter] at hj
  obtain ⟨p, ⟨hp, hcond⟩, rfl⟩ := hj
  have hval := List.mem_enum_iff_getElem?.mp hp
  have hpe : p.2 = UNKNOWN_S := by
    have h2 := hcond
    simp only [Bool.and_eq_true, beq_iff_eq] at h2
    exact h2.1
  rwa [hpe] at hval

theorem certainShortIndices_nil {cls w : List Char}
    (h : ¬ w.contains UNKNOWN_S = true) : certainShortIndices cls w = [] := by
  unfold certainShortIndices
  rw [List.filter_eq_nil_iff.mpr, List.map_nil]
  intro p hp hcond
  have hval := List.mem_enum_iff_getElem?.mp hp
  have hpe : p.2 = UNKNOWN_S := by
    have h2 := hcond
    simp only [Bool.and_eq_true, beq_iff_eq] at h2
    exact h2.1
  rw [hpe] at hval
  exact h (contains_iff_getElem?.mpr ⟨p.1, hval⟩)

theorem foldSet_invariant {w : List Char} :
    ∀ (I : List Nat) (t : List Char), t.length = w.length →
      (∀ (i : Nat), t[i]? = w[i]? ∨ w[i]? = some UNKNOWN_S) →
      (∀ j ∈ I, w[j]? = some UNKNOWN_S) →
      (I.foldl (fun t j => setCharAt t j 's') t).length = w.length ∧
      ∀ (i : Nat), (I.foldl (fun t j => setCharAt t j 's') t)[i]? = w[i]? ∨
        w[i]? = some UNKNOWN_S := by
  intro I
  induction I with
  | nil => intro t h1 h2 _; exact ⟨h1, h2⟩
  | cons k I' ih =>
    intro t h1 h2 hI
    have hkw : w[k]? = some UNKNOWN_S := hI k (List.mem_cons_self _ _)
    have hkl : k < w.length := by
      by_contra hk
      push_neg at hk
      rw [List.getElem?_eq_none hk] at hkw
      exact Option.noConfusion hkw
    have hsp : setCharAt t k 's' = splice t k ['s'] := rfl
    have hlen2 : (setCharAt t k 's').length = w.length := by
      rw [hsp, splice_length (by simp; omega)]
      exact h1
    simp only [List.foldl_cons]
    refine ih (setCharAt t k 's') hlen2 ?_ (fun j hj => hI j (List.mem_cons_of_mem _ hj))
    intro i
    by_cases hik : i = k
    · subst hik
      right
      exact hkw
    · rw [hsp]
      by_cases hlt : i < k
      · rw [splice_getElem?_left hlt (by omega)]
        exact h2 i
      · rw [splice_getElem?_right (by simp; omega) (by simp; omega)]
        exact h2 i

theorem stage1_length (cls w : List Char) : (stage1 cls w).length = w.length := by
  unfold stage1
  rw [fill_in_double_s_length]
  exact (foldSet_invariant (certainShortIndices cls w) w rfl (fun _ => Or.inl rfl)
    (fun _ hj => certainShortIndices_mem hj)).1

theorem stage1_pres (cls w : List Char) (i : Nat) :
    (stage1 cls w)[i]? = w[i]? ∨ w[i]? = some UNKNOWN_S := by
  unfold stage1
  have h := (foldSet_invariant (certainShortIndices cls w) w rfl (fun _ => Or.inl rfl)
    (fun _ hj => certainShortIndices_mem hj)).2
  rcases fill_in_double_s_pres
      ((certainShortIndices cls w).foldl (fun t i => setCharAt t i 's') w) i with hk | hk
  · rcases h i with h2 | h2
    · left; rw [hk, h2]
    · right; exact h2
  · rcases h i with h2 | h2
    · right; rw [← h2, hk]
    · right; exact h2

theorem stage1_eq_self {cls w : List Char} (h : ¬ w.contains UNKNOWN_S = true) :
    stage1 cls w = w := by
  unfold stage1
  rw [certainShortIndices_nil h, List.foldl_nil, fill_in_double_s_eq_self h]

theorem default_replace_eq_self {w : List Char} (h : ¬ w.contains UNKNOWN_S = true) :
    pyReplace w [UNKNOWN_S] ['ſ'] = w := by
  rw [pyReplace_single]
  conv_rhs => rw [← List.map_id w]
  apply List.map_congr_left
  intro a ha
  have hne : a ≠ UNKNOWN_S := by
    intro hc
    subst hc
    exact h (List.contains_iff_exists_mem_beq.mpr ⟨UNKNOWN_S, ha, by simp⟩)
  simp [hne]

theorem default_replace_no_unknown (w : List Char) (i : Nat) :
    (pyReplace w [UNKNOWN_S] ['ſ'])[i]? ≠ some UNKNOWN_S := by
  rw [pyReplace_single, List.getElem?_map]
  intro h
  cases hw : w[i]? with
  | none => rw [hw] at h; simp at h
  | some c =>
    rw [hw] at h
    have hms : Option.map (fun c => if c = UNKNOWN_S then 'ſ' else c) (some c) =
        some (if c = UNKNOWN_S then 'ſ' else c) := rfl
    rw [hms] at h
    have := Option.some.inj h
    by_cases hc : c = UNKNOWN_S
    · rw [if_pos hc] at this
      exact absurd this (by decide)
    · rw [if_neg hc] at this
      exact hc this

/-! Facts about the case and accent transfer. -/

theorem transfer_long_S_length (r o : List Char) :
    (transfer_long_S r o).length = min r.length o.length := by
  simp [transfer_long_S]

theorem transfer_long_S_getElem? {r o : List Char} {i : Nat} {a b : Char}
    (ha : r[i]? = some a) (hb : o[i]? = some b) :
    (transfer_long_S r o)[i]? = some (transferChar a b) := by
  unfold transfer_long_S
  rw [List.getElem?_zipWith, ha, hb]

theorem transfer_long_S_self (w : List Char) :
    transfer_long_S (blueprint_of w) w = w := by
  unfold transfer_long_S blueprint_of strip_consonant_accents
  induction w with
  | nil => rfl
  | cons c w' ih =>
    simp only [List.map_cons, List.zipWith_cons_cons]
    rw [ih]
    congr 1
    unfold transferChar
    rw [if_pos rfl]

theorem transfer_long_S_no_unknown {r o : List Char}
    (hr : ∀ (i : Nat), r[i]? ≠ some UNKNOWN_S) (i : Nat) :
    (transfer_long_S r o)[i]? ≠ some UNKNOWN_S := by
  intro h
  unfold transfer_long_S at h
  rw [List.getElem?_zipWith] at h
  cases hra : r[i]? with
  | none => rw [hra] at h; simp at h
  | some a =>
    cases hrb : o[i]? with
    | none => rw [hra, hrb] at h; simp at h
    | some b =>
      rw [hra, hrb] at h
      simp only [Option.some.injEq] at h
      have hane : a ≠ UNKNOWN_S := fun hc => hr i (by rw [hra, hc])
      unfold transferChar at h
      split at h
      · rename_i heq
        subst h
        rw [show strip_consonant_accents_char (pyLowerChar UNKNOWN_S) = UNKNOWN_S from rfl]
          at heq
        exact hane heq.symm
      · exact hane h

/-! Facts about the placeholder encoder. -/

theorem encode1_length (clean0 : List Char) : (encode1 clean0).length = clean0.length := by
  unfold encode1 pyDropTail pyTailSlice
  rw [if_neg (by omega : ¬(1 : Nat) = 0), if_neg (by omega : ¬(1 : Nat) = 0)]
  simp only [List.length_append]
  rw [pyReplace_length (by simp)]
  simp only [List.length_take, List.length_drop]
  omega

theorem encode1_getElem?_front {clean0 : List Char} {i : Nat} (h : i + 1 < clean0.length) :
    (encode1 clean0)[i]? = clean0[i]?.map fun c => if c = 's' then UNKNOWN_S else c := by
  unfold encode1 pyDropTail
  rw [if_neg (by omega : ¬(1 : Nat) = 0), pyReplace_single]
  rw [List.getElem?_append_left (by simp; omega)]
  rw [List.getElem?_map, List.getElem?_take_of_lt (by omega)]

theorem encode1_getElem?_last {clean0 : List Char} {i : Nat} (h : i + 1 = clean0.length) :
    (encode1 clean0)[i]? = clean0[i]? := by
  unfold encode1 pyDropTail pyTailSlice
  rw [if_neg (by omega : ¬(1 : Nat) = 0), if_neg (by omega : ¬(1 : Nat) = 0)]
  rw [pyReplace_single]
  rw [List.getElem?_append_right (by simp; omega)]
  rw [List.getElem?_drop]
  congr 1
  simp only [List.length_map, List.length_take]
  omega

theorem encode2_length (clean1 : List Char) : (encode2 clean1).length = clean1.length := by
  cases clean1 with
  | nil => rfl
  | cons c rest =>
    show (if c = UNKNOWN_S then 'ſ' :: rest else c :: rest).length = (c :: rest).length
    split <;> simp

theorem encode2_getElem?_zero (clean1 : List Char) :
    (encode2 clean1)[0]? = clean1[0]?.map fun c => if c = UNKNOWN_S then 'ſ' else c := by
  cases clean1 with
  | nil => rfl
  | cons c rest =>
    show (if c = UNKNOWN_S then 'ſ' :: rest else c :: rest)[0]? =
      ((c :: rest)[0]?).map fun c => if c = UNKNOWN_S then 'ſ' else c
    by_cases hc : c = UNKNOWN_S
    · rw [if_pos hc]
      simp [hc]
    · rw [if_neg hc]
      simp [hc]

theorem encode2_getElem?_succ (clean1 : List Char) (i : Nat) :
    (encode2 clean1)[i + 1]? = clean1[i + 1]? := by
  cases clean1 with
  | nil => rfl
  | cons c rest =>
    show (if c = UNKNOWN_S then 'ſ' :: rest else c :: rest)[i + 1]? = (c :: rest)[i + 1]?
    split <;> simp

theorem encode3_length {clean2 : List Char} (h : 2 ≤ clean2.length) :
    (encode3 clean2).length = clean2.length := by
  unfold encode3 pyDropTail pyTailSlice
  split
  · split <;>
    · rw [if_neg (by omega : ¬(2 : Nat) = 0), if_neg (by omega : ¬(1 : Nat) = 0)]
      simp only [List.length_append, List.length_take, List.length_drop,
        List.length_cons, List.length_nil]
      omega
  · rfl

theorem encode3_of_not_marker {clean2 : List Char}
    (h : ¬ clean2.getD (clean2.length - 2) ' ' = UNKNOWN_S) : encode3 clean2 = clean2 := by
  unfold encode3
  rw [if_neg h]

theorem encode3_getElem?_penult {clean2 : List Char} (h : 2 ≤ clean2.length)
    (hm : clean2.getD (clean2.length - 2) ' ' = UNKNOWN_S) :
    (encode3 clean2)[clean2.length - 2]? =
      some (if clean2.getD (clean2.length - 1) ' ' ≠ 'k' then 'ſ' else 's') := by
  unfold encode3 pyDropTail pyTailSlice
  rw [if_pos hm]
  have hsplit : ∀ (x : Char),
      ((if (2 : Nat) = 0 then ([] : List Char) else clean2.take (clean2.length - 2)) ++
        [x] ++ (if (1 : Nat) = 0 then clean2 else clean2.drop (clean2.length - 1)))[
          clean2.length - 2]? = some x := by
    intro x
    rw [if_neg (by omega : ¬(2 : Nat) = 0), if_neg (by omega : ¬(1 : Nat) = 0)]
    rw [List.append_assoc,
      List.getElem?_append_right (by simp only [List.length_take]; omega)]
    have heq0 : clean2.length - 2 - (clean2.take (clean2.length - 2)).length = 0 := by
      simp only [List.length_take]
      omega
    rw [heq0]
    simp
  split
  · exact hsplit 'ſ'
  · exact hsplit 's'

theorem encode3_getElem?_front {clean2 : List Char} {i : Nat} (h : 2 ≤ clean2.length)
    (hi : i < clean2.length - 2) : (encode3 clean2)[i]? = clean2[i]? := by
  unfold encode3 pyDropTail pyTailSlice
  split
  · rw [if_neg (by omega : ¬(2 : Nat) = 0), if_neg (by omega : ¬(1 : Nat) = 0)]
    split <;>
    · rw [List.append_assoc, List.getElem?_append_left (by simp; omega),
        List.getElem?_take_of_lt (by omega)]
  · rfl

theorem encode3_getElem?_last {clean2 : List Char} (h : 2 ≤ clean2.length) :
    (encode3 clean2)[clean2.length - 1]? = clean2[clean2.length - 1]? := by
  unfold encode3 pyDropTail pyTailSlice
  split
  · rw [if_neg (by omega : ¬(2 : Nat) = 0), if_neg (by omega : ¬(1 : Nat) = 0)]
    split <;>
    · rw [List.getElem?_append_right (by simp; omega), List.getElem?_drop]
      congr 1
      simp only [List.length_append, List.length_take, List.length_cons, List.length_nil]
      omega
  · rfl

/-! Length preservation of each stage loop. -/

theorem pyTailSlice_length_eq {clean bp : List Char} (h : bp.length = clean.length)
    (k : Nat) : (pyTailSlice bp k).length = (pyTailSlice clean k).length := by
  unfold pyTailSlice
  by_cases h0 : k = 0
  · rw [if_pos h0, if_pos h0, h]
  · rw [if_neg h0, if_neg h0]
    simp only [List.length_drop]
    omega

theorem endLoop_length :
    ∀ (terms : List (List Char)) (clean bp : List Char), bp.length = clean.length →
      (endLoop terms clean bp).length = clean.length := by
  intro terms
  induction terms with
  | nil => intro clean bp _; rfl
  | cons t rest ih =>
    intro clean bp h
    unfold endLoop
    by_cases hg : t.length ≤ clean.length
    · rw [if_pos hg]
      split
      · rw [fill_in_double_s_length]
        simp only [List.length_append]
        rw [blueprint_replace_length (pyTailSlice_length_eq h t.length)]
        unfold pyDropTail pyTailSlice
        by_cases h0 : t.length = 0
        · rw [if_pos h0, if_pos h0]
          simp
        · rw [if_neg h0, if_neg h0]
          simp only [List.length_take, List.length_drop, List.length_nil]
          omega
      · exact ih clean bp h
    · rw [if_neg hg]
      exact ih clean bp h

theorem omniLoop_length :
    ∀ (terms : List (List Char)) (clean : List Char) (idxs : List Nat),
      (omniLoop terms clean idxs).1.length = clean.length := by
  intro terms
  induction terms with
  | nil => intro clean idxs; rfl
  | cons t rest ih =>
    intro clean idxs
    unfold omniLoop
    split
    · rfl
    · split
      · rw [ih, fill_in_double_s_length, crossword_length]
      · rw [ih, crossword_length]

theorem startLoop_length :
    ∀ (terms : List (List Char)) (clean : List Char),
      (startLoop terms clean).length = clean.length := by
  intro terms
  induction terms with
  | nil => intro clean; rfl
  | cons t rest ih =>
    intro clean
    unfold startLoop
    by_cases hg : t.length ≤ clean.length
    · rw [if_pos hg]
      split
      · rw [fill_in_double_s_length]
        simp only [List.length_append]
        rw [crossword_length]
        simp only [List.length_take, List.length_drop]
        omega
      · exact ih clean
    · rw [if_neg hg]
      exact ih clean

theorem postLoop_length :
    ∀ (terms : List (List Char)) (clean : List Char) (idxs : List Nat),
      (postLoop terms clean idxs).length = clean.length := by
  intro terms
  induction terms with
  | nil => intro clean idxs; rfl
  | cons t rest ih =>
    intro clean idxs
    unfold postLoop
    split
    · rfl
    · rw [ih]
      split
      · rw [fill_in_double_s_length, crossword_length]
      · rw [crossword_length]

theorem forcedLoop_length :
    ∀ (terms : List (List Char)) (clean bp : List Char), bp.length = clean.length →
      (forcedLoop terms clean bp).length = clean.length := by
  intro terms
  induction terms with
  | nil => intro clean bp _; rfl
  | cons t rest ih =>
    intro clean bp h
    unfold forcedLoop
    by_cases hg : t.length ≤ clean.length
    · rw [if_pos hg]
      have hbrl : (blueprint_replace clean bp t).1.length = clean.length :=
        blueprint_replace_length h
      split
      · rw [ih _ _ (by rw [fill_in_double_s_length, hbrl, h]), fill_in_double_s_length,
          hbrl]
      · rw [ih _ _ (by rw [hbrl, h]), hbrl]
    · rw [if_neg hg]
      exact ih clean bp h

theorem stage2_length {store : PatternStore} {bp clean : List Char}
    (h : bp.length = clean.length) : (stage2 store bp clean).length = clean.length := by
  unfold stage2
  split
  · rfl
  · exact endLoop_length _ clean bp h

theorem stage4_length (store : PatternStore) (c0 : Char) (clean : List Char)
    (idxs : List Nat) : (stage4 store c0 clean idxs).length = clean.length := by
  unfold stage4
  split
  · rfl
  · split
    · exact startLoop_length _ clean
    · rfl

theorem exactLookup_length :
    ∀ (terms : List (List Char)) (clean word r : List Char),
      exactLookup terms clean word = some r → clean.length = word.length →
      r.length = word.length := by
  intro terms
  induction terms with
  | nil => intro clean word r h _; exact absurd h (by simp [exactLookup])
  | cons t rest ih =>
    intro clean word r h hlen
    unfold exactLookup at h
    split at h
    · rename_i heq
      have hr := Option.some.inj h
      have htl : t.length = clean.length := by
        rw [← heq, pyReplace_single]
        simp
      rw [← hr, transfer_long_S_length]
      omega
    · exact ih clean word r h hlen

/-! Behaviour of the stages under the empty pattern store. -/

theorem stage2_specStore (bp clean : List Char) : stage2 specStore bp clean = clean := by
  unfold stage2 endsListLookup specStore
  simp

theorem stage4_specStore (c0 : Char) (clean : List Char) (idxs : List Nat) :
    stage4 specStore c0 clean idxs = clean := rfl

/-! Equation lemmas for `convert_german_word`. -/

theorem convert_nil (cfg : Config) (store : PatternStore) (w : List Char)
    (h : strip_consonant_accents (w.map pyLowerChar) = []) :
    convert_german_word cfg store w = none := by
  unfold convert_german_word
  rw [h]

theorem convert_cons (cfg : Config) (store : PatternStore) (w : List Char) (c0 : Char)
    (rest0 : List Char) (h : strip_consonant_accents (w.map pyLowerChar) = c0 :: rest0) :
    convert_german_word cfg store w =
      (match
        (match store.exactMatches c0 with
         | none => none
         | some terms => exactLookup terms (c0 :: rest0) w) with
       | some r => some r
       | none =>
         if (encode2 (encode1 (c0 :: rest0))).length < 2 then none
         else
           if !hasUnknownAt (fill_in_double_s (encode3 (encode2 (encode1 (c0 :: rest0)))))
               (find_blank_indices
                 (fill_in_double_s (encode3 (encode2 (encode1 (c0 :: rest0)))))) then
             some (transfer_long_S
               (fill_in_double_s (encode3 (encode2 (encode1 (c0 :: rest0))))) w)
           else
             some (transfer_long_S
               (resolveStages cfg store c0 (c0 :: rest0)
                 (fill_in_double_s (encode3 (encode2 (encode1 (c0 :: rest0)))))) w)) := by
  unfold convert_german_word
  rw [h]

theorem resolveStages_specStore (cfg : Config) (c0 : Char) (bp clean4 : List Char) :
    resolveStages cfg specStore c0 bp clean4 =
      defaultResolve cfg.defaultUnknownsToLongS
        (stage1 (shortLookaheadClass cfg.forceShortSBeforeZ) clean4) := by
  unfold resolveStages
  rw [stage2_specStore]
  rfl

theorem convert_specStore_eq (cfg : Config) (w : List Char) (h2 : 2 ≤ w.length) :
    convert_german_word cfg specStore w =
      some (transfer_long_S
        (defaultResolve cfg.defaultUnknownsToLongS
          (stage1 (shortLookaheadClass cfg.forceShortSBeforeZ)
            (fill_in_double_s (encode3 (encode2 (encode1 (blueprint_of w))))))) w) := by
  unfold blueprint_of
  have hlen0 : (strip_consonant_accents (w.map pyLowerChar)).length = w.length := by
    simp [strip_consonant_accents]
  cases hc0 : strip_consonant_accents (w.map pyLowerChar) with
  | nil =>
    rw [hc0] at hlen0
    simp at hlen0
    omega
  | cons c0 rest0 =>
    rw [hc0] at hlen0
    rw [convert_cons cfg specStore w c0 rest0 hc0]
    have hlen2 : (encode2 (encode1 (c0 :: rest0))).length = w.length := by
      rw [encode2_length, encode1_length, hlen0]
    rw [show (match specStore.exactMatches c0 with
        | none => (none : Option (List Char))
        | some terms => exactLookup terms (c0 :: rest0) w) = none from rfl]
    rw [resolveStages_specStore]
    rw [if_neg (by omega : ¬(encode2 (encode1 (c0 :: rest0))).length < 2)]
    by_cases hu : hasUnknownAt (fill_in_double_s (encode3 (encode2 (encode1 (c0 :: rest0)))))
        (find_blank_indices
          (fill_in_double_s (encode3 (encode2 (encode1 (c0 :: rest0)))))) = true
    · simp only [hu, Bool.not_true, Bool.false_eq_true, if_false]
    · rw [Bool.not_eq_true] at hu
      simp only [hu, Bool.not_false, if_true]
      have hnc : ¬ (fill_in_double_s
          (encode3 (encode2 (encode1 (c0 :: rest0))))).contains UNKNOWN_S = true := by
        intro hcon
        rw [hasUnknownAt_blanks.mpr hcon] at hu
        exact Bool.noConfusion hu
      rw [stage1_eq_self hnc]
      unfold defaultResolve
      cases cfg.defaultUnknownsToLongS
      · rw [if_neg (by simp)]
      · rw [if_pos rfl, default_replace_eq_self hnc]

theorem resolveStages_length (cfg : Config) (store : PatternStore) (c0 : Char)
    {bp clean4 : List Char} (h : bp.length = clean4.length) :
    (resolveStages cfg store c0 bp clean4).length = clean4.length := by
  unfold resolveStages stage3 stage4p stage5 defaultResolve
  have l1 : (stage1 (shortLookaheadClass cfg.forceShortSBeforeZ) clean4).length =
      clean4.length := stage1_length _ _
  have l2 : (stage2 store bp
      (stage1 (shortLookaheadClass cfg.forceShortSBeforeZ) clean4)).length =
      clean4.length := by
    rw [stage2_length (by rw [l1]; exact h)]
    exact l1
  have l3 : ((omniLoop store.omnipresentPatterns
      (stage2 store bp (stage1 (shortLookaheadClass cfg.forceShortSBeforeZ) clean4))
      (find_blank_indices (stage2 store bp
        (stage1 (shortLookaheadClass cfg.forceShortSBeforeZ) clean4))))).1.length =
      clean4.length := by
    rw [omniLoop_length]
    exact l2
  have l4 := stage4_length store c0
    ((omniLoop store.omnipresentPatterns
      (stage2 store bp (stage1 (shortLookaheadClass cfg.forceShortSBeforeZ) clean4))
      (find_blank_indices (stage2 store bp
        (stage1 (shortLookaheadClass cfg.forceShortSBeforeZ) clean4))))).1
    ((omniLoop store.omnipresentPatterns
      (stage2 store bp (stage1 (shortLookaheadClass cfg.forceShortSBeforeZ) clean4))
      (find_blank_indices (stage2 store bp
        (stage1 (shortLookaheadClass cfg.forceShortSBeforeZ) clean4))))).2
  have l5 := postLoop_length store.postprocessPatterns
    (stage4 store c0
      ((omniLoop store.omnipresentPatterns
        (stage2 store bp (stage1 (shortLookaheadClass cfg.forceShortSBeforeZ) clean4))
        (find_blank_indices (stage2 store bp
          (stage1 (shortLookaheadClass cfg.forceShortSBeforeZ) clean4))))).1
      ((omniLoop store.omnipresentPatterns
        (stage2 store bp (stage1 (shortLookaheadClass cfg.forceShortSBeforeZ) clean4))
        (find_blank_indices (stage2 store bp
          (stage1 (shortLookaheadClass cfg.forceShortSBeforeZ) clean4))))).2)
    ((omniLoop store.omnipresentPatterns
      (stage2 store bp (stage1 (shortLookaheadClass cfg.forceShortSBeforeZ) clean4))
      (find_blank_indices (stage2 store bp
        (stage1 (shortLookaheadClass cfg.forceShortSBeforeZ) clean4))))).2
  have l9 : (postLoop store.postprocessPatterns
      (stage4 store c0
        ((omniLoop store.omnipresentPatterns
          (stage2 store bp (stage1 (shortLookaheadClass cfg.forceShortSBeforeZ) clean4))
          (find_blank_indices (stage2 store bp
            (stage1 (shortLookaheadClass cfg.forceShortSBeforeZ) clean4))))).1
        ((omniLoop store.omnipresentPatterns
          (stage2 store bp (stage1 (shortLookaheadClass cfg.forceShortSBeforeZ) clean4))
          (find_blank_indices (stage2 store bp
            (stage1 (shortLookaheadClass cfg.forceShortSBeforeZ) clean4))))).2)
      ((omniLoop store.omnipresentPatterns
        (stage2 store bp (stage1 (shortLookaheadClass cfg.forceShortSBeforeZ) clean4))
        (find_blank_indices (stage2 store bp
          (stage1 (shortLookaheadClass cfg.forceShortSBeforeZ) clean4))))).2).length =
      clean4.length := by
    rw [l5, l4]
    exact l3
  have l10 := forcedLoop_length store.forcedOverwrites _ bp (by rw [l9]; exact h)
  split
  · rw [pyReplace_length (by simp), l10]
    exact l9
  · rw [l10]
    exact l9

theorem convert_length {cfg : Config} {store : PatternStore} {w out : List Char}
    (h : convert_german_word cfg store w = some out) : out.length = w.length := by
  have hlen0 : (strip_consonant_accents (w.map pyLowerChar)).length = w.length := by
    simp [strip_consonant_accents]
  cases hc0 : strip_consonant_accents (w.map pyLowerChar) with
  | nil =>
    rw [convert_nil cfg store w hc0] at h
    exact Option.noConfusion h
  | cons c0 rest0 =>
    rw [hc0] at hlen0
    rw [convert_cons cfg store w c0 rest0 hc0] at h
    cases hex : (match store.exactMatches c0 with
        | none => none
        | some terms => exactLookup terms (c0 :: rest0) w) with
    | some r =>
      rw [hex] at h
      have hro : r = out := Option.some.inj h
      cases hem : store.exactMatches c0 with
      | none =>
        rw [hem] at hex
        exact Option.noConfusion hex
      | some terms =>
        rw [hem] at hex
        rw [← hro]
        exact exactLookup_length terms (c0 :: rest0) w r hex hlen0
    | none =>
      rw [hex] at h
      have h' : (if (encode2 (encode1 (c0 :: rest0))).length < 2 then none
          else
            if !hasUnknownAt (fill_in_double_s (encode3 (encode2 (encode1 (c0 :: rest0)))))
                (find_blank_indices
                  (fill_in_double_s (encode3 (encode2 (encode1 (c0 :: rest0)))))) then
              some (transfer_long_S
                (fill_in_double_s (encode3 (encode2 (encode1 (c0 :: rest0))))) w)
            else
              some (transfer_long_S
                (resolveStages cfg store c0 (c0 :: rest0)
                  (fill_in_double_s (encode3 (encode2 (encode1 (c0 :: rest0)))))) w)) =
          some out := h
      by_cases hlt : (encode2 (encode1 (c0 :: rest0))).length < 2
      · rw [if_pos hlt] at h'
        exact Option.noConfusion h'
      · rw [if_neg hlt] at h'
        have hCl : (fill_in_double_s
            (encode3 (encode2 (encode1 (c0 :: rest0))))).length = w.length := by
          rw [fill_in_double_s_length, encode3_length (by omega), encode2_length,
            encode1_length, hlen0]
        split at h'
        · have hto := Option.some.inj h'
          rw [← hto, transfer_long_S_length, hCl]
          simp
        · have hto := Option.some.inj h'
          rw [← hto, transfer_long_S_length,
            resolveStages_length cfg store c0 (by rw [hCl, hlen0]), hCl]
          simp

/-! Helper for locating the unique marker in a padded two-character window. -/

theorem phi_unique_at {pre post : List Char} {u v : Char}
    (hpre : ¬ pre.contains UNKNOWN_S = true) (hpost : ¬ post.contains UNKNOWN_S = true) :
    ∀ (i : Nat), ((pre ++ [u, v]) ++ post)[i]? = some UNKNOWN_S →
      (i = pre.length ∧ u = UNKNOWN_S) ∨ (i = pre.length + 1 ∧ v = UNKNOWN_S) := by
  intro i hi
  by_cases h1 : i < pre.length
  · rw [List.getElem?_append_left (by simp; omega), List.getElem?_append_left h1] at hi
    exact absurd (contains_iff_getElem?.mpr ⟨i, hi⟩) hpre
  · by_cases h2 : i < pre.length + 2
    · rw [List.getElem?_append_left (by simp; omega),
        List.getElem?_append_right (by omega)] at hi
      rcases Nat.lt_or_ge i (pre.length + 1) with hlt | hge
      · have h0 : i - pre.length = 0 := by omega
        rw [h0] at hi
        left
        exact ⟨by omega, by simpa using hi⟩
      · have h0 : i - pre.length = 1 := by omega
        rw [h0] at hi
        right
        exact ⟨by omega, by simpa using hi⟩
    · rw [List.getElem?_append_right (by simp; omega)] at hi
      exact absurd (contains_iff_getElem?.mpr ⟨_, hi⟩) hpost

/-- C1: length preservation: whenever the conversion returns a word it has
the same character count as its input, and the three replacement primitives
used by the stages (crossword replacement, blueprint replacement on
equal-length blueprint and text, digraph filling) preserve the working
string's length. -/
theorem C1_length_preservation :
    (∀ (cfg : Config) (store : PatternStore) (w out : List Char),
      convert_german_word cfg store w = some out → out.length = w.length) ∧
    (∀ (text sp : List Char), (crossword_replace text sp).1.length = text.length) ∧
    (∀ (text bp sp : List Char), bp.length = text.length →
      (blueprint_replace text bp sp).1.length = text.length) ∧
    (∀ (w : List Char), (fill_in_double_s w).length = w.length) :=
  ⟨fun _ _ _ _ h => convert_length h, crossword_length,
    fun _ _ _ h => blueprint_replace_length h, fill_in_double_s_length⟩

/-- Witness for C1 at concrete inputs. -/
theorem C1_length_preservation_witness :
    (['ſ', 'o'] : List Char).length = (['s', 'o'] : List Char).length ∧
    (blueprint_replace ['φ', 'a'] ['s', 'a'] ['ſ', 'a']).1.length =
      (['φ', 'a'] : List Char).length :=
  ⟨C1_length_preservation.1 defaultConfig specStore ['s', 'o'] ['ſ', 'o'] (by decide),
   C1_length_preservation.2.2.1 ['φ', 'a'] ['s', 'a'] ['ſ', 'a'] (by decide)⟩

/-- C2: the source is not guarded against short inputs: on the empty word it
evaluates `clean_word[0]` (line 108) and on a one-character word it evaluates
`clean_word[-2]` (line 126), both raising `IndexError` (modelled as `none`)
instead of returning the input unchanged. -/
theorem C2_short_input_crash :
    (∀ (cfg : Config) (store : PatternStore), convert_german_word cfg store [] = none) ∧
    (∀ (cfg : Config) (c : Char), convert_german_word cfg specStore [c] = none) := by
  constructor
  · intro cfg store
    exact convert_nil cfg store [] rfl
  · intro cfg c
    have hb : strip_consonant_accents (([c]).map pyLowerChar) =
        [strip_consonant_accents_char (pyLowerChar c)] := rfl
    rw [convert_cons cfg specStore [c] _ [] hb]
    simp only [show specStore.exactMatches (strip_consonant_accents_char (pyLowerChar c)) =
      none from rfl]
    rw [if_pos]
    rw [encode2_length, encode1_length]
    simp

/-- C3 counterexample: the digraph filler resolves "s"+marker to "sſ"
(short s then long s), not to the canonical "ſs" order the claim states. -/
theorem C3_digraph_counterexample :
    fill_in_double_s ['s', UNKNOWN_S] = ['s', 'ſ'] ∧
    fill_in_double_s ['s', UNKNOWN_S] ≠ ['ſ', 's'] := by
  constructor
  · decide
  · decide

/-- C3 (amended): the filler resolves each isolated marker+"s" pair to
long-s+short-s, but each isolated "s"+marker pair to short-s+long-s ("sſ"),
the reverse of the canonical digraph order. -/
theorem C3_digraph_amended :
    (∀ (pre post : List Char), ¬ pre.contains UNKNOWN_S = true →
      ¬ post.contains UNKNOWN_S = true →
      fill_in_double_s (pre ++ [UNKNOWN_S, 's'] ++ post) = pre ++ ['ſ', 's'] ++ post) ∧
    (∀ (pre post : List Char), ¬ pre.contains UNKNOWN_S = true →
      ¬ post.contains UNKNOWN_S = true → post[0]? ≠ some 's' →
      fill_in_double_s (pre ++ ['s', UNKNOWN_S] ++ post) = pre ++ ['s', 'ſ'] ++ post) := by
  constructor
  · intro pre post hpre hpost
    unfold fill_in_double_s
    rw [pyReplace_single_occ (by simp) pre post ?u1]
    case u1 =>
      intro i hi
      have hX : ((pre ++ [UNKNOWN_S, 's']) ++ post)[i]? = some UNKNOWN_S := by
        have h0 := isPre_getElem? hi (show 0 < 2 by omega)
        rw [List.getElem?_drop] at h0
        simpa using h0
      rcases phi_unique_at hpre hpost i hX with ⟨h, _⟩ | ⟨_, hv⟩
      · exact h
      · exact absurd hv (by decide)
    apply pyReplace_eq_self (by simp)
    intro i hi
    have hX : ((pre ++ ['ſ', 's']) ++ post)[i + 1]? = some UNKNOWN_S := by
      have h0 := isPre_getElem? hi (show 1 < 2 by omega)
      rw [List.getElem?_drop] at h0
      simpa using h0
    rcases phi_unique_at hpre hpost (i + 1) hX with ⟨_, hu⟩ | ⟨_, hv⟩
    · exact absurd hu (by decide)
    · exact absurd hv (by decide)
  · intro pre post hpre hpost hhead
    unfold fill_in_double_s
    have e1 : pyReplace (pre ++ ['s', UNKNOWN_S] ++ post) [UNKNOWN_S, 's'] ['ſ', 's'] =
        pre ++ ['s', UNKNOWN_S] ++ post := by
      apply pyReplace_eq_self (by simp)
      intro i hi
      have hX : ((pre ++ ['s', UNKNOWN_S]) ++ post)[i]? = some UNKNOWN_S := by
        have h0 := isPre_getElem? hi (show 0 < 2 by omega)
        rw [List.getElem?_drop] at h0
        simpa using h0
      have hX1 : ((pre ++ ['s', UNKNOWN_S]) ++ post)[i + 1]? = some 's' := by
        have h0 := isPre_getElem? hi (show 1 < 2 by omega)
        rw [List.getElem?_drop] at h0
        simpa using h0
      rcases phi_unique_at hpre hpost i hX with ⟨_, hu⟩ | ⟨hidx, _⟩
      · exact absurd hu (by decide)
      · subst hidx
        rw [List.getElem?_append_right (by simp)] at hX1
        have h0 : pre.length + 1 + 1 - (pre ++ ['s', UNKNOWN_S]).length = 0 := by
          simp
        rw [h0] at hX1
        exact hhead hX1
    rw [e1]
    rw [pyReplace_single_occ (by simp) pre post ?u2]
    case u2 =>
      intro i hi
      have hX : ((pre ++ ['s', UNKNOWN_S]) ++ post)[i + 1]? = some UNKNOWN_S := by
        have h0 := isPre_getElem? hi (show 1 < 2 by omega)
        rw [List.getElem?_drop] at h0
        simpa using h0
      rcases phi_unique_at hpre hpost (i + 1) hX with ⟨_, hu⟩ | ⟨hidx, _⟩
      · exact absurd hu (by decide)
      · omega

/-- Witness for C3 (amended) at concrete inputs. -/
theorem C3_digraph_amended_witness :
    fill_in_double_s (['a'] ++ [UNKNOWN_S, 's'] ++ ['b']) = ['a'] ++ ['ſ', 's'] ++ ['b'] ∧
    fill_in_double_s (['a'] ++ ['s', UNKNOWN_S] ++ ['b']) = ['a'] ++ ['s', 'ſ'] ++ ['b'] :=
  ⟨C3_digraph_amended.1 ['a'] ['b'] (by decide) (by decide),
   C3_digraph_amended.2 ['a'] ['b'] (by decide) (by decide) (by decide)⟩

/-! Position chains through the placeholder encoder, used for the
word-initial and penultimate claims. -/

theorem blueprint_of_getElem? (w : List Char) (i : Nat) :
    (blueprint_of w)[i]? =
      (w[i]?).map fun c => strip_consonant_accents_char (pyLowerChar c) := by
  unfold blueprint_of strip_consonant_accents
  rw [List.getElem?_map, List.getElem?_map]
  cases w[i]? <;> rfl

theorem blueprint_of_length (w : List Char) : (blueprint_of w).length = w.length := by
  simp [blueprint_of, strip_consonant_accents]

theorem clean4_getElem?_zero {w : List Char} (h2 : 2 ≤ w.length)
    (hs : (blueprint_of w)[0]? = some 's') :
    (fill_in_double_s (encode3 (encode2 (encode1 (blueprint_of w)))))[0]? = some 'ſ' := by
  have hlen0 := blueprint_of_length w
  have hl2 : (encode2 (encode1 (blueprint_of w))).length = w.length := by
    rw [encode2_length, encode1_length, hlen0]
  have h1 : (encode1 (blueprint_of w))[0]? = some UNKNOWN_S := by
    rw [encode1_getElem?_front (by omega), hs]
    rfl
  have h2' : (encode2 (encode1 (blueprint_of w)))[0]? = some 'ſ' := by
    rw [encode2_getElem?_zero, h1]
    rfl
  have h3 : (encode3 (encode2 (encode1 (blueprint_of w))))[0]? = some 'ſ' := by
    by_cases hn3 : 3 ≤ w.length
    · rw [encode3_getElem?_front (by omega) (by omega)]
      exact h2'
    · have hw2 : w.length = 2 := by omega
      have hcond : ¬ (encode2 (encode1 (blueprint_of w))).getD
          ((encode2 (encode1 (blueprint_of w))).length - 2) ' ' = UNKNOWN_S := by
        rw [List.getD_eq_getElem?_getD, hl2, hw2]
        have e0 : (2 : Nat) - 2 = 0 := rfl
        rw [e0, h2']
        decide
      rw [encode3_of_not_marker hcond]
      exact h2'
  rcases fill_in_double_s_pres (encode3 (encode2 (encode1 (blueprint_of w)))) 0 with
    hk | hk
  · rw [hk]
    exact h3
  · rw [h3] at hk
    exact absurd (Option.some.inj hk) (by decide)

theorem clean4_getElem?_penult {w : List Char} (h3 : 3 ≤ w.length)
    (hs : (blueprint_of w)[w.length - 2]? = some 's') {lastc : Char}
    (hl : (blueprint_of w)[w.length - 1]? = some lastc) :
    (fill_in_double_s (encode3 (encode2 (encode1 (blueprint_of w)))))[w.length - 2]? =
      some (if lastc ≠ 'k' then 'ſ' else 's') := by
  have hlen0 := blueprint_of_length w
  have hl2 : (encode2 (encode1 (blueprint_of w))).length = w.length := by
    rw [encode2_length, encode1_length, hlen0]
  have h1 : (encode1 (blueprint_of w))[w.length - 2]? = some UNKNOWN_S := by
    rw [encode1_getElem?_front (by omega), hs]
    rfl
  have h2' : (encode2 (encode1 (blueprint_of w)))[w.length - 2]? = some UNKNOWN_S := by
    have e : w.length - 2 = (w.length - 3) + 1 := by omega
    rw [e, encode2_getElem?_succ, ← e]
    exact h1
  have h1l : (encode1 (blueprint_of w))[w.length - 1]? =
      (blueprint_of w)[w.length - 1]? := encode1_getElem?_last (by omega)
  have h2l : (encode2 (encode1 (blueprint_of w)))[w.length - 1]? = some lastc := by
    have e : w.length - 1 = (w.length - 2) + 1 := by omega
    rw [e, encode2_getElem?_succ, ← e, h1l, hl]
  have hcond : (encode2 (encode1 (blueprint_of w))).getD
      ((encode2 (encode1 (blueprint_of w))).length - 2) ' ' = UNKNOWN_S := by
    rw [List.getD_eq_getElem?_getD, hl2, h2']
    rfl
  have hval : (encode3 (encode2 (encode1 (blueprint_of w))))[w.length - 2]? =
      some (if lastc ≠ 'k' then 'ſ' else 's') := by
    have hp := @encode3_getElem?_penult
      (encode2 (encode1 (blueprint_of w))) (by omega) hcond
    rw [hl2] at hp
    have hgd : (encode2 (encode1 (blueprint_of w))).getD (w.length - 1) ' ' = lastc := by
      rw [List.getD_eq_getElem?_getD, h2l]
      rfl
    rw [hgd] at hp
    exact hp
  rcases fill_in_double_s_pres (encode3 (encode2 (encode1 (blueprint_of w))))
    (w.length - 2) with hk | hk
  · rw [hk]
    exact hval
  · rw [hval] at hk
    have hfalse := Option.some.inj hk
    exfalso
    by_cases hkk : lastc ≠ 'k'
    · rw [if_pos hkk] at hfalse
      exact absurd hfalse (by decide)
    · rw [if_neg hkk] at hfalse
      exact absurd hfalse (by decide)

theorem convert_specStore_out {w out : List Char} (h2 : 2 ≤ w.length) {i : Nat}
    {v : Char} (hv : v ≠ UNKNOWN_S)
    (hC : (fill_in_double_s (encode3 (encode2 (encode1 (blueprint_of w)))))[i]? = some v)
    {c : Char} (hw : w[i]? = some c)
    (hconv : convert_german_word defaultConfig specStore w = some out) :
    out[i]? = some (transferChar v c) := by
  rw [convert_specStore_eq defaultConfig w h2] at hconv
  have hres := Option.some.inj hconv
  have hs1 : (stage1 (shortLookaheadClass defaultConfig.forceShortSBeforeZ)
      (fill_in_double_s (encode3 (encode2 (encode1 (blueprint_of w))))))[i]? =
      some v := by
    rcases stage1_pres (shortLookaheadClass defaultConfig.forceShortSBeforeZ)
      (fill_in_double_s (encode3 (encode2 (encode1 (blueprint_of w))))) i with hk | hk
    · rw [hk]
      exact hC
    · rw [hC] at hk
      exact absurd (Option.some.inj hk) hv
  have hdr : (defaultResolve defaultConfig.defaultUnknownsToLongS
      (stage1 (shortLookaheadClass defaultConfig.forceShortSBeforeZ)
        (fill_in_double_s (encode3 (encode2 (encode1 (blueprint_of w)))))))[i]? =
      some v := by
    unfold defaultResolve
    rw [if_pos (show defaultConfig.defaultUnknownsToLongS = true from rfl),
      pyReplace_single, List.getElem?_map, hs1]
    simp [hv]
  rw [← hres]
  exact transfer_long_S_getElem? hdr hw

/-- C4 counterexample: on the one-character word "s" — whose blueprint starts
with "s" — the conversion raises `IndexError` (modelled as `none`), so it has
no output starting with the long s. -/
theorem C4_word_initial_counterexample :
    (blueprint_of ['s'])[0]? = some 's' ∧
    convert_german_word defaultConfig specStore ['s'] = none := by
  constructor
  · decide
  · decide

/-- C4 (amended): for every word of length at least two whose blueprint
starts with "s", the conversion's output starts with the long s (words of
length one crash instead, see the counterexample). -/
theorem C4_word_initial_amended :
    ∀ (w out : List Char), 2 ≤ w.length → (blueprint_of w)[0]? = some 's' →
      convert_german_word defaultConfig specStore w = some out →
      out[0]? = some 'ſ' := by
  intro w out h2 hs hconv
  have hc : w[0]? = some (w.get ⟨0, by omega⟩) := by
    rw [List.getElem?_eq_some]
    exact ⟨by omega, rfl⟩
  have hout := convert_specStore_out h2 (by decide) (clean4_getElem?_zero h2 hs) hc hconv
  rw [hout]
  have hbc : strip_consonant_accents_char (pyLowerChar (w.get ⟨0, by omega⟩)) = 's' := by
    have hb := blueprint_of_getElem? w 0
    rw [hc] at hb
    rw [hs] at hb
    exact (Option.some.inj hb).symm
  unfold transferChar
  rw [if_neg (by rw [hbc]; decide)]

/-- Witness for C4 (amended) at the concrete word "so". -/
theorem C4_word_initial_amended_witness :
    convert_german_word defaultConfig specStore ['s', 'o'] = some ['ſ', 'o'] ∧
    (['ſ', 'o'] : List Char)[0]? = some 'ſ' :=
  ⟨by decide,
   C4_word_initial_amended ['s', 'o'] ['ſ', 'o'] (by decide) (by decide) (by decide)⟩

/-- C5 counterexample: on the length-two word "sk" — second-to-last blueprint
character "s", last character "k" — the word-initial rule fires first (line
122 of the source), the penultimate check then sees "ſ" instead of the
marker, and the output keeps the long s where the claim demands a short s. -/
theorem C5_penultimate_counterexample :
    convert_german_word defaultConfig specStore ['s', 'k'] = some ['ſ', 'k'] ∧
    (['ſ', 'k'] : List Char)[(['s', 'k'] : List Char).length - 2]? ≠ some 's' := by
  constructor
  · decide
  · decide

/-- C5 (amended): for words of length at least two whose second-to-last
blueprint character is "s", that position resolves to the long s when the
last character is not "k"; when the last character is "k" it resolves to the
transferred short s, except on length-two words, where the second-to-last
character is also word-initial and the word-initial long-s rule wins. -/
theorem C5_penultimate_amended :
    (∀ (w out : List Char), 2 ≤ w.length →
      (blueprint_of w)[w.length - 2]? = some 's' →
      (blueprint_of w)[w.length - 1]? ≠ some 'k' →
      convert_german_word defaultConfig specStore w = some out →
      out[w.length - 2]? = some 'ſ') ∧
    (∀ (w out : List Char), 3 ≤ w.length →
      (blueprint_of w)[w.length - 2]? = some 's' →
      (blueprint_of w)[w.length - 1]? = some 'k' →
      convert_german_word defaultConfig specStore w = some out →
      out[w.length - 2]? = w[w.length - 2]?) := by
  constructor
  · intro w out h2 hs hk hconv
    have hc : w[w.length - 2]? = some (w.get ⟨w.length - 2, by omega⟩) := by
      rw [List.getElem?_eq_some]
      exact ⟨by omega, rfl⟩
    have hbc : strip_consonant_accents_char
        (pyLowerChar (w.get ⟨w.length - 2, by omega⟩)) = 's' := by
      have hb := blueprint_of_getElem? w (w.length - 2)
      rw [hc, hs] at hb
      exact (Option.some.inj hb).symm
    by_cases h3 : 3 ≤ w.length
    · obtain ⟨lastc, hl⟩ : ∃ lastc, (blueprint_of w)[w.length - 1]? = some lastc := by
        have hlt : w.length - 1 < (blueprint_of w).length := by
          rw [blueprint_of_length]
          omega
        exact ⟨(blueprint_of w).get ⟨w.length - 1, hlt⟩,
          by rw [List.getElem?_eq_some]; exact ⟨hlt, rfl⟩⟩
      have hlk : lastc ≠ 'k' := by
        intro hcon
        rw [hcon] at hl
        exact hk hl
      have hC := clean4_getElem?_penult h3 hs hl
      rw [if_pos hlk] at hC
      have hout := convert_specStore_out h2 (by decide) hC hc hconv
      rw [hout]
      unfold transferChar
      rw [if_neg (by rw [hbc]; decide)]
    · have hw2 : w.length = 2 := by omega
      have hs0 : (blueprint_of w)[0]? = some 's' := by
        rw [show (0 : Nat) = w.length - 2 by omega]
        exact hs
      have hC := clean4_getElem?_zero h2 hs0
      have hc0 : w[0]? = some (w.get ⟨0, by omega⟩) := by
        rw [List.getElem?_eq_some]
        exact ⟨by omega, rfl⟩
      have hout := convert_specStore_out h2 (by decide) hC hc0 hconv
      have hbc0 : strip_consonant_accents_char
          (pyLowerChar (w.get ⟨0, by omega⟩)) = 's' := by
        have hb := blueprint_of_getElem? w 0
        rw [hc0, hs0] at hb
        exact (Option.some.inj hb).symm
      rw [show w.length - 2 = 0 by omega, hout]
      unfold transferChar
      rw [if_neg (by rw [hbc0]; decide)]
  · intro w out h3 hs hk hconv
    have hc : w[w.length - 2]? = some (w.get ⟨w.length - 2, by omega⟩) := by
      rw [List.getElem?_eq_some]
      exact ⟨by omega, rfl⟩
    have hbc : strip_consonant_accents_char
        (pyLowerChar (w.get ⟨w.length - 2, by omega⟩)) = 's' := by
      have hb := blueprint_of_getElem? w (w.length - 2)
      rw [hc, hs] at hb
      exact (Option.some.inj hb).symm
    have hC := clean4_getElem?_penult h3 hs hk
    rw [if_neg (by simp)] at hC
    have hout := convert_specStore_out (by omega) (by decide) hC hc hconv
    rw [hout, hc]
    unfold transferChar
    rw [if_pos hbc]

/-- Witness for C5 (amended) at the concrete words "gase" and "bask". -/
theorem C5_penultimate_amended_witness :
    (convert_german_word defaultConfig specStore ['g', 'a', 's', 'e'] =
      some ['g', 'a', 'ſ', 'e'] ∧
     (['g', 'a', 'ſ', 'e'] : List Char)[(['g', 'a', 's', 'e'] : List Char).length - 2]? =
      some 'ſ') ∧
    (convert_german_word defaultConfig specStore ['b', 'a', 's', 'k'] =
      some ['b', 'a', 's', 'k'] ∧
     (['b', 'a', 's', 'k'] : List Char)[(['b', 'a', 's', 'k'] : List Char).length - 2]? =
      (['b', 'a', 's', 'k'] : List Char)[(['b', 'a', 's', 'k'] : List Char).length - 2]?) :=
  ⟨⟨by decide,
    C5_penultimate_amended.1 ['g', 'a', 's', 'e'] ['g', 'a', 'ſ', 'e'] (by decide)
      (by decide) (by decide) (by decide)⟩,
   ⟨by decide,
    C5_penultimate_amended.2 ['b', 'a', 's', 'k'] ['b', 'a', 's', 'k'] (by decide)
      (by decide) (by decide) (by decide)⟩⟩

theorem contains_eq_false_of {w : List Char}
    (h : ∀ (i : Nat), w[i]? ≠ some UNKNOWN_S) : w.contains UNKNOWN_S = false := by
  cases hcase : w.contains UNKNOWN_S
  · rfl
  · obtain ⟨i, hi⟩ := contains_iff_getElem?.mp hcase
    exact absurd hi (h i)

theorem exactLookup_mem :
    ∀ (terms : List (List Char)) (clean word r : List Char),
      exactLookup terms clean word = some r →
      ∃ t ∈ terms, pyReplace t ['ſ'] ['s'] = clean ∧ r = transfer_long_S t word := by
  intro terms
  induction terms with
  | nil => intro clean word r h; exact absurd h (by simp [exactLookup])
  | cons t rest ih =>
    intro clean word r h
    unfold exactLookup at h
    split at h
    · rename_i heq
      exact ⟨t, List.mem_cons_self _ _, heq, (Option.some.inj h).symm⟩
    · obtain ⟨t', ht', he, hr⟩ := ih clean word r h
      exact ⟨t', List.mem_cons_of_mem _ ht', he, hr⟩

/-- C6 counterexample: with `DEFAULT_UNKNOWNS_TO_LONG_S` set to false the
source has no else branch, so an unresolved marker survives into the
returned string instead of being assigned the short s. -/
theorem C6_default_resolution_counterexample :
    convert_german_word ⟨false, false⟩ specStore ['a', 's', 't', 'a'] =
      some ['a', UNKNOWN_S, 't', 'a'] ∧
    (['a', UNKNOWN_S, 't', 'a'] : List Char).contains UNKNOWN_S = true := by
  constructor
  · decide
  · decide

/-- C6 (amended): when `defaultUnknownsToLongS` is true (the hard-coded
default), every marker still unresolved after the forced-overwrite stage is
assigned the long s and the returned string never contains the marker (for
any store whose exact-match entries are marker-free); when the toggle is
false, no resolution is applied at all and remaining markers are returned
verbatim, as the concrete run in the last conjunct shows. -/
theorem C6_default_resolution_amended :
    (∀ (z : Bool) (store : PatternStore) (w out : List Char),
      (∀ (c : Char) (l : List (List Char)), store.exactMatches c = some l →
        ∀ t ∈ l, ¬ t.contains UNKNOWN_S = true) →
      convert_german_word ⟨true, z⟩ store w = some out →
      out.contains UNKNOWN_S = false) ∧
    convert_german_word ⟨true, false⟩ specStore ['a', 's', 't', 'a'] =
      some ['a', 'ſ', 't', 'a'] ∧
    convert_german_word ⟨false, false⟩ specStore ['a', 's', 't', 'a'] =
      some ['a', UNKNOWN_S, 't', 'a'] := by
  refine ⟨?_, by decide, by decide⟩
  intro z store w out hstore h
  apply contains_eq_false_of
  cases hc0 : strip_consonant_accents (w.map pyLowerChar) with
  | nil =>
    rw [convert_nil _ store w hc0] at h
    exact Option.noConfusion h
  | cons c0 rest0 =>
    rw [convert_cons _ store w c0 rest0 hc0] at h
    cases hex : (match store.exactMatches c0 with
        | none => none
        | some terms => exactLookup terms (c0 :: rest0) w) with
    | some r =>
      rw [hex] at h
      have hro : r = out := Option.some.inj h
      cases hem : store.exactMatches c0 with
      | none =>
        rw [hem] at hex
        exact Option.noConfusion hex
      | some terms =>
        rw [hem] at hex
        obtain ⟨t, ht, _, hrt⟩ := exactLookup_mem terms (c0 :: rest0) w r hex
        intro i
        rw [← hro, hrt]
        apply transfer_long_S_no_unknown
        intro j hj
        exact absurd (contains_iff_getElem?.mpr ⟨j, hj⟩) (hstore c0 terms hem t ht)
    | none =>
      rw [hex] at h
      have h' : (if (encode2 (encode1 (c0 :: rest0))).length < 2 then none
          else
            if !hasUnknownAt (fill_in_double_s (encode3 (encode2 (encode1 (c0 :: rest0)))))
                (find_blank_indices
                  (fill_in_double_s (encode3 (encode2 (encode1 (c0 :: rest0)))))) then
              some (transfer_long_S
                (fill_in_double_s (encode3 (encode2 (encode1 (c0 :: rest0))))) w)
            else
              some (transfer_long_S
                (resolveStages ⟨true, z⟩ store c0 (c0 :: rest0)
                  (fill_in_double_s (encode3 (encode2 (encode1 (c0 :: rest0)))))) w)) =
          some out := h
      by_cases hlt : (encode2 (encode1 (c0 :: rest0))).length < 2
      · rw [if_pos hlt] at h'
        exact Option.noConfusion h'
      · rw [if_neg hlt] at h'
        split at h'
        · rename_i hcond
          have hto := Option.some.inj h'
          intro i
          rw [← hto]
          apply transfer_long_S_no_unknown
          intro j hj
          have hcon : (fill_in_double_s
              (encode3 (encode2 (encode1 (c0 :: rest0))))).contains UNKNOWN_S = true :=
            contains_iff_getElem?.mpr ⟨j, hj⟩
          rw [hasUnknownAt_blanks.mpr hcon] at hcond
          exact Bool.noConfusion hcond
        · have hto := Option.some.inj h'
          intro i
          rw [← hto]
          apply transfer_long_S_no_unknown
          intro j
          have hres : resolveStages ⟨true, z⟩ store c0 (c0 :: rest0)
              (fill_in_double_s (encode3 (encode2 (encode1 (c0 :: rest0))))) =
              pyReplace
                (forcedLoop store.forcedOverwrites
                  (stage5 store (stage4p store c0 (stage3 store
                    (stage2 store (c0 :: rest0)
                      (stage1 (shortLookaheadClass z)
                        (fill_in_double_s (encode3 (encode2 (encode1 (c0 :: rest0))))))))))
                  (c0 :: rest0)) [UNKNOWN_S] ['ſ'] := rfl
          rw [hres]
          exact default_replace_no_unknown _ j

/-- Witness for C6 (amended): the long-s default leaves no marker in the
output of the concrete run on "asta". -/
theorem C6_default_resolution_amended_witness :
    (['a', 'ſ', 't', 'a'] : List Char).contains UNKNOWN_S = false :=
  C6_default_resolution_amended.1 false specStore ['a', 's', 't', 'a']
    ['a', 'ſ', 't', 'a'] (fun _ _ hsl => Option.noConfusion hsl) (by decide)

/-- C7 counterexample: the conversion is not the identity on every word
without an "s": the empty word (which has no "s") crashes, and "So" (which
contains no "s" character, only an uppercase "S") is rewritten to "ſo". -/
theorem C7_non_s_counterexample :
    convert_german_word defaultConfig specStore [] = none ∧
    ¬ 's' ∈ (['S', 'o'] : List Char) ∧
    convert_german_word defaultConfig specStore ['S', 'o'] = some ['ſ', 'o'] := by
  refine ⟨by decide, by decide, by decide⟩

/-- C7 (amended): for every word of length at least two none of whose
characters normalizes to the letter "s" (or to the reserved marker) under
lowering and consonant-accent stripping, the conversion returns the word
unchanged, for every configuration and every pattern store. -/
theorem C7_non_s_amended :
    ∀ (cfg : Config) (store : PatternStore) (w : List Char), 2 ≤ w.length →
      (∀ c ∈ w, strip_consonant_accents_char (pyLowerChar c) ≠ 's' ∧
        strip_consonant_accents_char (pyLowerChar c) ≠ UNKNOWN_S) →
      convert_german_word cfg store w = some w := by
  intro cfg store w h2 hw
  have hlen0 := blueprint_of_length w
  cases hc0 : strip_consonant_accents (w.map pyLowerChar) with
  | nil =>
    have : (blueprint_of w).length = 0 := by
      unfold blueprint_of
      rw [hc0]
      rfl
    rw [hlen0] at this
    omega
  | cons c0 rest0 =>
    have hc0' : blueprint_of w = c0 :: rest0 := hc0
    have hbpchar : ∀ (i : Nat) (a : Char), (c0 :: rest0)[i]? = some a →
        a ≠ 's' ∧ a ≠ UNKNOWN_S := by
      intro i a hia
      rw [← hc0', blueprint_of_getElem?] at hia
      cases hwi : w[i]? with
      | none =>
        rw [hwi] at hia
        exact Option.noConfusion hia
      | some cw =>
        rw [hwi] at hia
        have heq : strip_consonant_accents_char (pyLowerChar cw) = a :=
          Option.some.inj hia
        have hmem : cw ∈ w := List.mem_iff_getElem?.mpr ⟨i, hwi⟩
        rw [← heq]
        exact hw cw hmem
    have hnlen : (c0 :: rest0).length = w.length := by
      rw [← hc0', hlen0]
    have hnocontain : (c0 :: rest0).contains UNKNOWN_S = false := by
      apply contains_eq_false_of
      intro i hi
      exact (hbpchar i UNKNOWN_S hi).2 rfl
    have he1 : encode1 (c0 :: rest0) = c0 :: rest0 := by
      unfold encode1 pyDropTail pyTailSlice
      rw [if_neg (by omega : ¬(1 : Nat) = 0), if_neg (by omega : ¬(1 : Nat) = 0)]
      rw [pyReplace_single]
      rw [@List.map_congr_left _ _ _ _ id ?g1, List.map_id, List.take_append_drop]
      case g1 =>
        intro a ha
        have hamem : a ∈ c0 :: rest0 := List.take_subset _ _ ha
        obtain ⟨i, hi⟩ := List.mem_iff_getElem?.mp hamem
        simp [(hbpchar i a hi).1]
    have he2 : encode2 (c0 :: rest0) = c0 :: rest0 := by
      show (if c0 = UNKNOWN_S then 'ſ' :: rest0 else c0 :: rest0) = c0 :: rest0
      rw [if_neg]
      exact (hbpchar 0 c0 (by simp)).2
    have he3 : encode3 (c0 :: rest0) = c0 :: rest0 := by
      apply encode3_of_not_marker
      intro hcon
      rw [List.getD_eq_getElem?_getD] at hcon
      cases hg : (c0 :: rest0)[(c0 :: rest0).length - 2]? with
      | none =>
        rw [hg] at hcon
        exact absurd hcon (by decide)
      | some a =>
        rw [hg] at hcon
        exact (hbpchar _ a hg).2 hcon
    have hfill : fill_in_double_s (c0 :: rest0) = c0 :: rest0 :=
      fill_in_double_s_eq_self (by rw [hnocontain]; simp)
    rw [convert_cons cfg store w c0 rest0 hc0]
    cases hem : store.exactMatches c0 with
    | none =>
      have h' : (if (encode2 (encode1 (c0 :: rest0))).length < 2 then
            (none : Option (List Char))
          else
            if !hasUnknownAt (fill_in_double_s (encode3 (encode2 (encode1 (c0 :: rest0)))))
                (find_blank_indices
                  (fill_in_double_s (encode3 (encode2 (encode1 (c0 :: rest0)))))) then
              some (transfer_long_S
                (fill_in_double_s (encode3 (encode2 (encode1 (c0 :: rest0))))) w)
            else
              some (transfer_long_S
                (resolveStages cfg store c0 (c0 :: rest0)
                  (fill_in_double_s (encode3 (encode2 (encode1 (c0 :: rest0)))))) w)) =
          some w := by
        rw [he1, he2, he3, hfill]
        rw [if_neg (by omega : ¬(c0 :: rest0).length < 2)]
        have h4 : hasUnknownAt (c0 :: rest0) (find_blank_indices (c0 :: rest0)) =
            false := by
          cases hcase : hasUnknownAt (c0 :: rest0) (find_blank_indices (c0 :: rest0))
          · rfl
          · rw [hasUnknownAt_blanks.mp hcase] at hnocontain
            exact Bool.noConfusion hnocontain
        rw [h4]
        rw [if_pos (by simp)]
        rw [← hc0', transfer_long_S_self]
      exact h'
    | some terms =>
      rw [show (match some terms with
          | none => (none : Option (List Char))
          | some terms => exactLookup terms (c0 :: rest0) w) =
        exactLookup terms (c0 :: rest0) w from rfl]
      cases hex : exactLookup terms (c0 :: rest0) w with
      | none =>
        have h' : (if (encode2 (encode1 (c0 :: rest0))).length < 2 then
              (none : Option (List Char))
            else
              if !hasUnknownAt
                  (fill_in_double_s (encode3 (encode2 (encode1 (c0 :: rest0)))))
                  (find_blank_indices
                    (fill_in_double_s (encode3 (encode2 (encode1 (c0 :: rest0)))))) then
                some (transfer_long_S
                  (fill_in_double_s (encode3 (encode2 (encode1 (c0 :: rest0))))) w)
              else
                some (transfer_long_S
                  (resolveStages cfg store c0 (c0 :: rest0)
                    (fill_in_double_s (encode3 (encode2 (encode1 (c0 :: rest0)))))) w)) =
            some w := by
          rw [he1, he2, he3, hfill]
          rw [if_neg (by omega : ¬(c0 :: rest0).length < 2)]
          have h4 : hasUnknownAt (c0 :: rest0) (find_blank_indices (c0 :: rest0)) =
              false := by
            cases hcase : hasUnknownAt (c0 :: rest0) (find_blank_indices (c0 :: rest0))
            · rfl
            · rw [hasUnknownAt_blanks.mp hcase] at hnocontain
              exact Bool.noConfusion hnocontain
          rw [h4]
          rw [if_pos (by simp)]
          rw [← hc0', transfer_long_S_self]
        exact h'
      | some r =>
        obtain ⟨t, _, het, hrt⟩ := exactLookup_mem terms (c0 :: rest0) w r hex
        show some r = some w
        have htc : t = c0 :: rest0 := by
          apply List.ext_getElem?
          intro i
          have hmapi : (t.map fun c => if c = 'ſ' then 's' else c)[i]? =
              (c0 :: rest0)[i]? := by
            rw [← pyReplace_single, het]
          rw [List.getElem?_map] at hmapi
          cases hti : t[i]? with
          | none =>
            rw [hti] at hmapi
            simpa using hmapi
          | some a =>
            rw [hti] at hmapi
            by_cases ha : a = 'ſ'
            · exfalso
              rw [ha] at hmapi
              have hs' : (c0 :: rest0)[i]? = some 's' := by
                rw [← hmapi]
                rfl
              exact (hbpchar i 's' hs').1 rfl
            · rw [← hmapi]
              simp [ha]
        rw [hrt, htc, ← hc0', transfer_long_S_self]

/-- Witness for C7 (amended) at the concrete word "tag". -/
theorem C7_non_s_amended_witness :
    convert_german_word defaultConfig specStore ['t', 'a', 'g'] =
      some ['t', 'a', 'g'] :=
  C7_non_s_amended defaultConfig specStore ['t', 'a', 'g'] (by decide) (by decide)

/-- Definition following the words of claim C8 (spec §4.5): the candidate
list is selected by looking up the last three blueprint characters, else the
last two, else the last one — the longest key tried first. -/
def endsListLookupSpec (store : PatternStore) (bp : List Char) :
    Option (List (List Char)) :=
  if 3 ≤ bp.length ∧ (store.endPatterns (pyTailSlice bp 3)).isSome then
    store.endPatterns (pyTailSlice bp 3)
  else if 2 ≤ bp.length ∧ (store.endPatterns (pyTailSlice bp 2)).isSome then
    store.endPatterns (pyTailSlice bp 2)
  else if 1 ≤ bp.length then store.endPatterns (pyTailSlice bp 1)
  else none

/-- Definition following the words of claim C8: the candidates are tried in
list order on the equal-length trailing snippets via blueprint matching,
candidates longer than the word are skipped, and the stage stops at the
first candidate producing any replacement. -/
def endLoopSpec (terms : List (List Char)) (clean bp : List Char) : List Char :=
  match terms.find? (fun t => decide (t.length ≤ clean.length) &&
      (blueprint_replace (pyTailSlice clean t.length) (pyTailSlice bp t.length) t).2) with
  | none => clean
  | some t => fill_in_double_s (pyDropTail clean t.length ++
      (blueprint_replace (pyTailSlice clean t.length) (pyTailSlice bp t.length) t).1)

/-- Definition following the words of claim C8: the whole suffix stage. -/
def stage2Spec (store : PatternStore) (bp clean : List Char) : List Char :=
  match endsListLookupSpec store bp with
  | none => clean
  | some terms => endLoopSpec terms clean bp

theorem endsListLookup_eq_spec (store : PatternStore) (bp : List Char) :
    endsListLookup store bp = endsListLookupSpec store bp := by
  unfold endsListLookup endsListLookupSpec
  by_cases h3 : 3 ≤ bp.length
  · cases he3 : store.endPatterns (pyTailSlice bp 3) with
    | some l => simp [he3, h3]
    | none =>
      have h2 : 2 ≤ bp.length := by omega
      cases he2 : store.endPatterns (pyTailSlice bp 2) with
      | some l => simp [he2, he3, h2, h3]
      | none =>
        have h1 : 1 ≤ bp.length := by omega
        simp [he2, he3, h1, h2, h3]
  · by_cases h2 : 2 ≤ bp.length
    · cases he2 : store.endPatterns (pyTailSlice bp 2) with
      | some l => simp [he2, h2, h3]
      | none =>
        have h1 : 1 ≤ bp.length := by omega
        simp [he2, h1, h2, h3]
    · by_cases h1 : 1 ≤ bp.length
      · simp [h1, h2, h3]
      · simp [h1, h2, h3]

theorem endLoop_eq_spec :
    ∀ (terms : List (List Char)) (clean bp : List Char),
      endLoop terms clean bp = endLoopSpec terms clean bp := by
  intro terms
  induction terms with
  | nil => intro clean bp; rfl
  | cons t rest ih =>
    intro clean bp
    unfold endLoopSpec
    simp only [List.find?_cons]
    by_cases hg : t.length ≤ clean.length
    · by_cases hr : (blueprint_replace (pyTailSlice clean t.length)
          (pyTailSlice bp t.length) t).2 = true
      · rw [show (decide (t.length ≤ clean.length) &&
            (blueprint_replace (pyTailSlice clean t.length)
              (pyTailSlice bp t.length) t).2) = true from by simp [hg, hr]]
        simp only [endLoop]
        rw [if_pos hg, if_pos hr]
      · rw [show (decide (t.length ≤ clean.length) &&
            (blueprint_replace (pyTailSlice clean t.length)
              (pyTailSlice bp t.length) t).2) = false from by simp [hg, hr]]
        have hstep : endLoop (t :: rest) clean bp = endLoop rest clean bp := by
          simp only [endLoop]
          rw [if_pos hg, if_neg hr]
        rw [hstep, ih clean bp]
        rfl
    · rw [show (decide (t.length ≤ clean.length) &&
          (blueprint_replace (pyTailSlice clean t.length)
            (pyTailSlice bp t.length) t).2) = false from by simp [hg]]
      have hstep : endLoop (t :: rest) clean bp = endLoop rest clean bp := by
        simp only [endLoop]
        rw [if_neg hg]
      rw [hstep, ih clean bp]
      rfl

/-- C8: the suffix lookup stage of the source coincides with the stage as
the claim describes it: key selection tries the last three, else last two,
else last one blueprint characters (longest first); candidates are tried in
list order on equal-length trailing snippets via blueprint matching;
oversized candidates are skipped; the stage stops at the first candidate
that produces a replacement. -/
theorem C8_suffix_lookup :
    ∀ (store : PatternStore) (bp clean : List Char),
      stage2 store bp clean = stage2Spec store bp clean := by
  intro store bp clean
  unfold stage2 stage2Spec
  rw [endsListLookup_eq_spec]
  cases endsListLookupSpec store bp with
  | none => rfl
  | some terms => exact endLoop_eq_spec terms clean bp

/-- C9: the forced-overwrite stage applies every list entry in order with no
early exit (splitting the list anywhere shows the loop continues after any
prefix), an entry longer than the word is silently skipped, each short
enough entry is applied via blueprint matching against the full blueprint,
and a blueprint replacement forces the pattern at every matched offset. -/
theorem C9_forced_overwrite :
    (∀ (l1 l2 : List (List Char)) (clean bp : List Char),
      forcedLoop (l1 ++ l2) clean bp = forcedLoop l2 (forcedLoop l1 clean bp) bp) ∧
    (∀ (t : List Char) (ts : List (List Char)) (clean bp : List Char),
      clean.length < t.length → forcedLoop (t :: ts) clean bp = forcedLoop ts clean bp) ∧
    (∀ (t : List Char) (ts : List (List Char)) (clean bp : List Char),
      t.length ≤ clean.length →
      forcedLoop (t :: ts) clean bp =
        forcedLoop ts (if (blueprint_replace clean bp t).2 then
          fill_in_double_s (blueprint_replace clean bp t).1
        else (blueprint_replace clean bp t).1) bp) ∧
    (∀ (text bp sp : List Char), bp.length ≤ text.length →
      ∀ j ∈ pyFindIter bp (pyReplace sp ['ſ'] ['s']),
        ((blueprint_replace text bp sp).1.drop j).take sp.length = sp) := by
  refine ⟨?app, ?skip, ?step, fun _ _ _ h => blueprint_replace_seg h⟩
  case skip =>
    intro t ts clean bp h
    simp only [forcedLoop]
    rw [if_neg (by omega)]
  case step =>
    intro t ts clean bp h
    simp only [forcedLoop]
    rw [if_pos h]
  case app =>
    intro l1
    induction l1 with
    | nil => intro l2 clean bp; rfl
    | cons t l1' ih =>
      intro l2 clean bp
      show forcedLoop (t :: (l1' ++ l2)) clean bp = _
      by_cases hg : t.length ≤ clean.length
      · simp only [forcedLoop]
        rw [if_pos hg, if_pos hg, ih]
      · simp only [forcedLoop]
        rw [if_neg hg, if_neg hg, ih]

/-- Witness for C9 at concrete inputs. -/
theorem C9_forced_overwrite_witness :
    forcedLoop [['x', 'y', 'z']] ['a'] ['a'] = forcedLoop [] ['a'] ['a'] ∧
    forcedLoop [['b']] ['a'] ['a'] =
      forcedLoop [] (if (blueprint_replace ['a'] ['a'] ['b']).2 then
        fill_in_double_s (blueprint_replace ['a'] ['a'] ['b']).1
      else (blueprint_replace ['a'] ['a'] ['b']).1) ['a'] ∧
    ((blueprint_replace [UNKNOWN_S] ['s'] ['ſ']).1.drop 0).take 1 = ['ſ'] :=
  ⟨C9_forced_overwrite.2.1 ['x', 'y', 'z'] [] ['a'] ['a'] (by decide),
   C9_forced_overwrite.2.2.1 ['b'] [] ['a'] ['a'] (by decide),
   C9_forced_overwrite.2.2.2 [UNKNOWN_S] ['s'] ['ſ'] (by decide) 0 (by decide)⟩

/-- C10: no stage operation ever writes the unresolved marker into an
already-resolved position: crossword replacement and the digraph filler and
the phonotactic stage only resolve marker positions (unconditionally), a
blueprint replacement with a marker-free pattern never introduces a marker,
and the default resolution leaves no marker at all, so the set of marker
positions only shrinks from stage to stage. -/
theorem C10_monotonic_resolution :
    (∀ (text sp : List Char) (i : Nat),
      (crossword_replace text sp).1[i]? = some UNKNOWN_S →
        text[i]? = some UNKNOWN_S) ∧
    (∀ (text bp sp : List Char), ¬ sp.contains UNKNOWN_S = true →
      bp.length ≤ text.length → ∀ (i : Nat),
      (blueprint_replace text bp sp).1[i]? = some UNKNOWN_S →
        text[i]? = some UNKNOWN_S) ∧
    (∀ (w : List Char) (i : Nat),
      (fill_in_double_s w)[i]? = some UNKNOWN_S → w[i]? = some UNKNOWN_S) ∧
    (∀ (cls w : List Char) (i : Nat),
      (stage1 cls w)[i]? = some UNKNOWN_S → w[i]? = some UNKNOWN_S) ∧
    (∀ (w : List Char) (i : Nat),
      (pyReplace w [UNKNOWN_S] ['ſ'])[i]? ≠ some UNKNOWN_S) := by
  refine ⟨?cw, ?bpm, ?fl, ?s1, fun w i => default_replace_no_unknown w i⟩
  case cw =>
    intro text sp i h
    rcases crossword_pres text sp i with hk | hk
    · rw [← hk]
      exact h
    · exact hk
  case bpm =>
    intro text bp sp hsp hlen i h
    refine blueprint_replace_pres ?_ hlen i h
    intro hmem
    exact hsp (List.contains_iff_exists_mem_beq.mpr ⟨UNKNOWN_S, hmem, by simp⟩)
  case fl =>
    intro w i h
    rcases fill_in_double_s_pres w i with hk | hk
    · rw [← hk]
      exact h
    · exact hk
  case s1 =>
    intro cls w i h
    rcases stage1_pres cls w i with hk | hk
    · rw [← hk]
      exact h
    · exact hk

/-- Witness for C10 at concrete inputs. -/
theorem C10_monotonic_resolution_witness :
    ([UNKNOWN_S] : List Char)[0]? = some UNKNOWN_S ∧
    ([UNKNOWN_S, 'a'] : List Char)[0]? = some UNKNOWN_S ∧
    ([UNKNOWN_S, 't'] : List Char)[0]? = some UNKNOWN_S ∧
    ([UNKNOWN_S, 't'] : List Char)[0]? = some UNKNOWN_S :=
  ⟨C10_monotonic_resolution.1 [UNKNOWN_S] ['t'] 0 (by decide),
   C10_monotonic_resolution.2.1 [UNKNOWN_S, 'a'] ['x'] ['b'] (by decide) (by decide) 0
     (by decide),
   C10_monotonic_resolution.2.2.1 [UNKNOWN_S, 't'] 0 (by decide),
   C10_monotonic_resolution.2.2.2.1 (shortLookaheadClass false) [UNKNOWN_S, 't'] 0
     (by decide)⟩

end LongS
